import Mathlib

/-!
SimpleVector: a growable array over a raw backing block.

A shallow embedding of `simple_vector.h`.  Iterators are slot offsets from
`begin()`; the backing block is a list of slots; every `size_t` computation of
the source goes through `SizeT`, so that the same definitions can be read with
unbounded naturals or with fixed-width wraparound.
-/

namespace SimpleVec

/-! ## Definitions -/

/-- Reading of the type `size_t`: unbounded naturals, or `w`-bit words. -/
inductive SizeT where
  | unbounded : SizeT
  | bits (w : Nat) : SizeT
deriving DecidableEq, Repr

/-- Result of `a + b` computed in `size_t`. -/
def SizeT.add (S : SizeT) (a b : Nat) : Nat :=
  match S with
  | .unbounded => a + b
  | .bits w => (a + b) % 2 ^ w

/-- Result of `a * b` computed in `size_t`. -/
def SizeT.mul (S : SizeT) (a b : Nat) : Nat :=
  match S with
  | .unbounded => a * b
  | .bits w => (a * b) % 2 ^ w

/-- Result of `a - b` computed in `size_t` (operands already in range).  With
unbounded naturals the difference is only ever taken with `b ≤ a`. -/
def SizeT.sub (S : SizeT) (a b : Nat) : Nat :=
  match S with
  | .unbounded => a - b
  | .bits w => (a + 2 ^ w - b) % 2 ^ w

/-- What the container needs to know about its element type and its allocator:
`dflt` is `Type{}`, `moved x` is the value an object holding `x` is left with
after `std::move` took it, and `fresh i` is what slot `i` of a block holds right
after `new`. -/
structure Env (α : Type) where
  dflt : α
  moved : α → α
  fresh : Nat → α

/-- Ways an operation can stop without a result. -/
inductive Err where
  | assertion : Err
  | out_of_range : Err
  | wild_load : Err
deriving DecidableEq, Repr

/-- Modelled from the spec: `ArrayPtr<Type>` of `array_ptr.h`, which is not among
the sources.  It owns one block of exactly `capacity` slots and gives raw,
unchecked slot access.  `raw_ptr_` lists the slots of the block; `stray` records,
in order, the slot indices of stores that were addressed past the end of the
block (such a store leaves the block itself untouched). -/
structure ArrayPtr (α : Type) where
  raw_ptr_ : List α
  stray : List Nat
deriving DecidableEq, Repr

/-- The array `ArrayPtr<Type>()`: no block. -/
def ArrayPtr.null {α : Type} : ArrayPtr α := ⟨[], []⟩

/-- Modelled from the spec: `ArrayPtr<Type>(size)` allocates a block of exactly
`size` slots; what the slots hold is up to the allocator (`Env.fresh`). -/
def ArrayPtr.alloc {α : Type} (E : Env α) (size : Nat) : ArrayPtr α :=
  ⟨(List.range size).map E.fresh, []⟩

/-- Raw load `arr[i]`; a load from outside the block has no defined value. -/
def ArrayPtr.load {α : Type} (p : ArrayPtr α) (i : Nat) : Except Err α :=
  match p.raw_ptr_[i]? with
  | some x => .ok x
  | none => .error .wild_load

/-- Raw store `arr[i] = x`; a store outside the block is recorded in `stray`. -/
def ArrayPtr.store {α : Type} (p : ArrayPtr α) (i : Nat) (x : α) : ArrayPtr α :=
  if i < p.raw_ptr_.length then ⟨p.raw_ptr_.set i x, p.stray⟩
  else ⟨p.raw_ptr_, p.stray ++ [i]⟩

/-- Loop of `std::copy` inside one block: `n` times `*d++ = *first++`, front to
back. -/
def copy_loop {α : Type} (p : ArrayPtr α) : Nat → Nat → Nat → Except Err (ArrayPtr α)
  | 0, _, _ => .ok p
  | n + 1, first, d =>
    match p.load first with
    | .ok x => copy_loop (p.store d x) n (first + 1) (d + 1)
    | .error e => .error e

/-- The call `std::copy(&arr[first], &arr[last], &arr[d_first])`. -/
def std_copy {α : Type} (p : ArrayPtr α) (first last d_first : Nat) :
    Except Err (ArrayPtr α) :=
  copy_loop p (last - first) first d_first

/-- Loop of `std::move` inside one block: `n` times `*d++ = std::move(*first++)`,
front to back; the source slot is left in its moved-from state. -/
def move_loop {α : Type} (E : Env α) (p : ArrayPtr α) :
    Nat → Nat → Nat → Except Err (ArrayPtr α)
  | 0, _, _ => .ok p
  | n + 1, first, d =>
    match p.load first with
    | .ok x => move_loop E ((p.store d x).store first (E.moved x)) n (first + 1) (d + 1)
    | .error e => .error e

/-- The call `std::move(&arr[first], &arr[last], &arr[d_first])`. -/
def std_move {α : Type} (E : Env α) (p : ArrayPtr α) (first last d_first : Nat) :
    Except Err (ArrayPtr α) :=
  move_loop E p (last - first) first d_first

/-- Loop of `std::copy` / `std::move` from a source range into another block:
`n` times `dst[d++] = src[first++]`.  The source of such a `std::move` is a
block that is released right afterwards, so its moved-from slots are not kept. -/
def copy_into {α : Type} (src : List α) (dst : ArrayPtr α) :
    Nat → Nat → Nat → Except Err (ArrayPtr α)
  | 0, _, _ => .ok dst
  | n + 1, first, d =>
    match src[first]? with
    | some x => copy_into src (dst.store d x) n (first + 1) (d + 1)
    | none => .error .wild_load

/-- Loop of `std::fill` / `std::generate`: `n` stores of `x` from slot `first` on. -/
def fill_loop {α : Type} (p : ArrayPtr α) (x : α) : Nat → Nat → ArrayPtr α
  | 0, _ => p
  | n + 1, first => fill_loop (p.store first x) x n (first + 1)

/-- The class `SimpleVector<Type>`: its three data members. -/
structure SimpleVector (α : Type) where
  arr_ : ArrayPtr α
  size_ : Nat
  capacity_ : Nat
deriving DecidableEq, Repr

variable {α : Type}

/-- Constructor `SimpleVector()`. -/
def SimpleVector.default : SimpleVector α := ⟨ArrayPtr.null, 0, 0⟩

/-- Constructor `SimpleVector(size_t size, const Type& value)`. -/
def SimpleVector.filled (E : Env α) (size : Nat) (value : α) : SimpleVector α :=
  ⟨fill_loop (ArrayPtr.alloc E size) value size 0, size, size⟩

/-- Constructor `explicit SimpleVector(size_t size)`, delegating with `Type{}`. -/
def SimpleVector.sized (E : Env α) (size : Nat) : SimpleVector α :=
  SimpleVector.filled E size E.dflt

/-- Constructor `SimpleVector(std::initializer_list<Type> init)`. -/
def SimpleVector.of_list (E : Env α) (init : List α) : Except Err (SimpleVector α) :=
  match copy_into init (ArrayPtr.alloc E init.length) init.length 0 0 with
  | .ok a => .ok ⟨a, init.length, init.length⟩
  | .error e => .error e

/-- Constructor `SimpleVector(const SimpleVector& other)`. -/
def SimpleVector.copy (E : Env α) (other : SimpleVector α) : Except Err (SimpleVector α) :=
  match copy_into other.arr_.raw_ptr_ (ArrayPtr.alloc E other.size_) other.size_ 0 0 with
  | .ok a => .ok ⟨a, other.size_, other.size_⟩
  | .error e => .error e

/-- Constructor `SimpleVector(ReserveProxyObj ProxyObj)`, the argument being the proxy's
`capacity`. -/
def SimpleVector.reserved (E : Env α) (capacity : Nat) : SimpleVector α :=
  ⟨ArrayPtr.alloc E capacity, 0, capacity⟩

/-- Constructor `SimpleVector(SimpleVector&& other)`: the new object and what is left of
`other`. -/
def SimpleVector.move_ctor (other : SimpleVector α) : SimpleVector α × SimpleVector α :=
  (⟨other.arr_, other.size_, other.capacity_⟩, ⟨ArrayPtr.null, 0, 0⟩)

/-- Operator `operator=(SimpleVector&& other)` for `this != &other`: the new
`*this` and what is left of `other`. -/
def SimpleVector.move_assign (self other : SimpleVector α) :
    SimpleVector α × SimpleVector α :=
  (⟨other.arr_, other.size_, other.capacity_⟩, ⟨self.arr_, 0, 0⟩)

/-- Method `swap(SimpleVector& other)`: the new `*this` and the new `other`. -/
def SimpleVector.swap (self other : SimpleVector α) : SimpleVector α × SimpleVector α :=
  (⟨other.arr_, other.size_, other.capacity_⟩, ⟨self.arr_, self.size_, self.capacity_⟩)

/-- Method `GetSize()`. -/
def SimpleVector.GetSize (v : SimpleVector α) : Nat := v.size_

/-- Method `GetCapacity()`. -/
def SimpleVector.GetCapacity (v : SimpleVector α) : Nat := v.capacity_

/-- Method `IsEmpty()`. -/
def SimpleVector.IsEmpty (v : SimpleVector α) : Bool := v.size_ == 0

/-- Method `begin()` as a slot offset. -/
def SimpleVector.begin (_v : SimpleVector α) : Nat := 0

/-- Method `end()` as a slot offset. -/
def SimpleVector.end_ (v : SimpleVector α) : Nat := v.size_

/-- Method `Clear()`. -/
def SimpleVector.Clear (v : SimpleVector α) : SimpleVector α := { v with size_ := 0 }

/-- Operator `operator=(const SimpleVector& rhs)` for `this != &rhs`; `rhs` is
not modified. -/
def SimpleVector.copy_assign (E : Env α) (self rhs : SimpleVector α) :
    Except Err (SimpleVector α) :=
  if rhs.IsEmpty then .ok self.Clear
  else
    match SimpleVector.copy E rhs with
    | .ok tmp => .ok (self.swap tmp).1
    | .error e => .error e

/-- Either assignment operator when `this == &rhs`: nothing is done. -/
def SimpleVector.self_assign (self : SimpleVector α) : SimpleVector α := self

/-- Method `Reserve(size_t new_capacity)`. -/
def SimpleVector.Reserve (E : Env α) (v : SimpleVector α) (new_capacity : Nat) :
    Except Err (SimpleVector α) :=
  if new_capacity > v.capacity_ then
    match copy_into v.arr_.raw_ptr_ (ArrayPtr.alloc E new_capacity) v.end_ 0 0 with
    | .ok tmp => .ok ⟨tmp, v.size_, new_capacity⟩
    | .error e => .error e
  else .ok v

/-- Method `Resize(size_t new_size)`. -/
def SimpleVector.Resize (S : SizeT) (E : Env α) (v : SimpleVector α) (new_size : Nat) :
    Except Err (SimpleVector α) :=
  if new_size < v.size_ then .ok { v with size_ := new_size }
  else if new_size ≤ v.capacity_ then
    .ok { v with arr_ := fill_loop v.arr_ E.dflt new_size v.end_, size_ := new_size }
  else
    match copy_into v.arr_.raw_ptr_ (ArrayPtr.alloc E (S.mul 2 new_size)) v.end_ 0 0 with
    | .ok tmp => .ok ⟨tmp, new_size, S.mul 2 new_size⟩
    | .error e => .error e

/-- Method `PushBack(const Type& item)`. -/
def SimpleVector.PushBack (S : SizeT) (E : Env α) (v : SimpleVector α) (item : α) :
    Except Err (SimpleVector α) :=
  if v.size_ = v.capacity_ then
    match v.Resize S E (S.add v.size_ 1) with
    | .ok w => .ok { w with arr_ := w.arr_.store (S.sub w.size_ 1) item }
    | .error e => .error e
  else .ok { v with arr_ := v.arr_.store v.size_ item, size_ := S.add v.size_ 1 }

/-- Method `PushBack(Type&& item)`: the vector, and what the caller's `item`
holds afterwards. -/
def SimpleVector.PushBack_move (S : SizeT) (E : Env α) (v : SimpleVector α) (item : α) :
    Except Err (SimpleVector α × α) :=
  if v.size_ = v.capacity_ then
    match v.Resize S E (S.add v.size_ 1) with
    | .ok w => .ok ({ w with arr_ := w.arr_.store (S.sub w.size_ 1) item }, E.moved item)
    | .error e => .error e
  else
    .ok ({ v with arr_ := v.arr_.store v.size_ item, size_ := S.add v.size_ 1 }, E.moved item)

/-- Method `Insert(ConstIterator pos, const Type& value)`: the returned iterator
(as a slot offset) and the vector.  `pos` is an offset from `cbegin()`, so the
first half of the assertion cannot fail. -/
def SimpleVector.Insert (S : SizeT) (E : Env α) (v : SimpleVector α) (pos : Nat)
    (value : α) : Except Err (Nat × SimpleVector α) :=
  if ¬ pos ≤ v.end_ then .error .assertion
  else if v.size_ = 0 ∧ v.capacity_ = 0 then
    .ok (0, ⟨(ArrayPtr.alloc E 1).store 0 value, S.add v.size_ 1, S.add v.capacity_ 1⟩)
  else if v.size_ = v.capacity_ then
    match v.Resize S E (S.add v.size_ 1) with
    | .ok w =>
      match std_copy w.arr_ pos w.end_ (pos + 1) with
      | .ok a => .ok (pos, { w with arr_ := a.store pos value })
      | .error e => .error e
    | .error e => .error e
  else
    match std_copy v.arr_ pos v.end_ (pos + 1) with
    | .ok a => .ok (pos, { v with arr_ := a.store pos value, size_ := S.add v.size_ 1 })
    | .error e => .error e

/-- Method `Insert(ConstIterator pos, Type&& value)`: the returned iterator, the
vector, and what the caller's `value` holds afterwards. -/
def SimpleVector.Insert_move (S : SizeT) (E : Env α) (v : SimpleVector α) (pos : Nat)
    (value : α) : Except Err (Nat × SimpleVector α × α) :=
  if ¬ pos ≤ v.end_ then .error .assertion
  else if v.size_ = 0 ∧ v.capacity_ = 0 then
    .ok (0, ⟨(ArrayPtr.alloc E 1).store 0 value, S.add v.size_ 1, S.add v.capacity_ 1⟩,
      E.moved value)
  else if v.size_ = v.capacity_ then
    match v.Resize S E (S.add v.size_ 1) with
    | .ok w =>
      match std_move E w.arr_ pos w.end_ (pos + 1) with
      | .ok a => .ok (pos, { w with arr_ := a.store pos value }, E.moved value)
      | .error e => .error e
    | .error e => .error e
  else
    match std_move E v.arr_ pos v.end_ (pos + 1) with
    | .ok a =>
      .ok (pos, { v with arr_ := a.store pos value, size_ := S.add v.size_ 1 }, E.moved value)
    | .error e => .error e

/-- Method `PopBack()`. -/
def SimpleVector.PopBack (S : SizeT) (v : SimpleVector α) : SimpleVector α :=
  if v.size_ ≠ 0 then { v with size_ := S.sub v.size_ 1 } else v

/-- Method `Erase(ConstIterator pos)`: the returned iterator (as a slot offset)
and the vector. -/
def SimpleVector.Erase (S : SizeT) (E : Env α) (v : SimpleVector α) (pos : Nat) :
    Except Err (Nat × SimpleVector α) :=
  if ¬ pos < v.end_ then .error .assertion
  else
    match std_move E v.arr_ (pos + 1) v.end_ pos with
    | .ok a => .ok (pos, { v with arr_ := a, size_ := S.sub v.size_ 1 })
    | .error e => .error e

/-- Operator `operator[](size_t index)`. -/
def SimpleVector.index (v : SimpleVector α) (index : Nat) : Except Err α :=
  if ¬ index < v.size_ then .error .assertion else v.arr_.load index

/-- Method `At(size_t index)`; the vector itself is not touched. -/
def SimpleVector.At (v : SimpleVector α) (index : Nat) : Except Err α :=
  if index ≥ v.size_ then .error .out_of_range else v.arr_.load index

/-- The live elements: the contents of slots `[0, size)`. -/
def SimpleVector.live (v : SimpleVector α) : List α := v.arr_.raw_ptr_.take v.size_

/-- Well-formed vector: `size ≤ capacity`, and the block has at least `capacity`
slots.  With unbounded sizes every constructor establishes this and every
operation keeps it. -/
def SimpleVector.WF (v : SimpleVector α) : Prop :=
  v.size_ ≤ v.capacity_ ∧ v.capacity_ ≤ v.arr_.raw_ptr_.length

instance (v : SimpleVector α) : Decidable v.WF := by
  unfold SimpleVector.WF; infer_instance

/-- The class invariant of the claims: `size ≤ capacity`. -/
def SimpleVector.Inv (v : SimpleVector α) : Prop := v.size_ ≤ v.capacity_

instance (v : SimpleVector α) : Decidable v.Inv := by
  unfold SimpleVector.Inv; infer_instance

/-- An element type like `int`: default `0`, moving copies, fresh slots hold `g`. -/
def intEnv (g : Nat) : Env Nat := ⟨0, id, fun _ => g⟩

/-- An element type like `std::string`: default and moved-from value empty. -/
def strEnv : Env String := ⟨"", fun _ => "", fun _ => ""⟩

/-- The vector `SimpleVector<Type>{...}` holding `xs` with `size = capacity`. -/
def lit (xs : List α) : SimpleVector α := ⟨⟨xs, []⟩, xs.length, xs.length⟩

/-- Loop of `std::equal` over two ranges of the same length `n`: stop with
`false` at the first pair that is not `==`. -/
def equal_loop [DecidableEq α] (a b : ArrayPtr α) : Nat → Nat → Nat → Except Err Bool
  | 0, _, _ => .ok true
  | n + 1, first1, first2 =>
    match a.load first1 with
    | .error e => .error e
    | .ok x =>
      match b.load first2 with
      | .error e => .error e
      | .ok y => if x = y then equal_loop a b n (first1 + 1) (first2 + 1) else .ok false

/-- The call `std::equal(first1, last1, first2, last2)` on random-access
ranges: ranges of different length are unequal, otherwise compare pairwise. -/
def std_equal [DecidableEq α] (a b : ArrayPtr α) (first1 last1 first2 last2 : Nat) :
    Except Err Bool :=
  if last1 - first1 ≠ last2 - first2 then .ok false
  else equal_loop a b (last1 - first1) first1 first2

/-- Loop of `std::lexicographical_compare` with `n1` and `n2` elements left:
while both ranges go on, `*first1 < *first2` gives `true`, `*first2 < *first1`
gives `false`; at the end the result is `first1 == last1 && first2 != last2`. -/
def lex_loop [LT α] [DecidableRel (fun x y : α => x < y)] (a b : ArrayPtr α) :
    Nat → Nat → Nat → Nat → Except Err Bool
  | 0, n2, _, _ => .ok (n2 != 0)
  | _ + 1, 0, _, _ => .ok false
  | n1 + 1, n2 + 1, first1, first2 =>
    match a.load first1 with
    | .error e => .error e
    | .ok x =>
      match b.load first2 with
      | .error e => .error e
      | .ok y =>
        if x < y then .ok true
        else if y < x then .ok false
        else lex_loop a b n1 n2 (first1 + 1) (first2 + 1)

/-- The call `std::lexicographical_compare(first1, last1, first2, last2)`. -/
def std_lexicographical_compare [LT α] [DecidableRel (fun x y : α => x < y)]
    (a b : ArrayPtr α) (first1 last1 first2 last2 : Nat) : Except Err Bool :=
  lex_loop a b (last1 - first1) (last2 - first2) first1 first2

/-- Operator `operator==(lhs, rhs)`. -/
def SimpleVector.op_eq [DecidableEq α] (lhs rhs : SimpleVector α) : Except Err Bool :=
  std_equal lhs.arr_ rhs.arr_ lhs.begin lhs.end_ rhs.begin rhs.end_

/-- Operator `operator!=(lhs, rhs)`: `!(lhs == rhs)`. -/
def SimpleVector.op_ne [DecidableEq α] (lhs rhs : SimpleVector α) : Except Err Bool :=
  (lhs.op_eq rhs).map not

/-- Operator `operator<(lhs, rhs)`. -/
def SimpleVector.op_lt [LT α] [DecidableRel (fun x y : α => x < y)]
    (lhs rhs : SimpleVector α) : Except Err Bool :=
  std_lexicographical_compare lhs.arr_ rhs.arr_ lhs.begin lhs.end_ rhs.begin rhs.end_

/-- Operator `operator<=(lhs, rhs)`: `!(rhs < lhs)`. -/
def SimpleVector.op_le [LT α] [DecidableRel (fun x y : α => x < y)]
    (lhs rhs : SimpleVector α) : Except Err Bool :=
  (rhs.op_lt lhs).map not

/-- Operator `operator>(lhs, rhs)`: `rhs < lhs`. -/
def SimpleVector.op_gt [LT α] [DecidableRel (fun x y : α => x < y)]
    (lhs rhs : SimpleVector α) : Except Err Bool :=
  rhs.op_lt lhs

/-- Operator `operator>=(lhs, rhs)`: `!(lhs < rhs)`. -/
def SimpleVector.op_ge [LT α] [DecidableRel (fun x y : α => x < y)]
    (lhs rhs : SimpleVector α) : Except Err Bool :=
  (lhs.op_lt rhs).map not

/-- The two ways a list is lexicographically below another: a first position
where they differ, the left element being smaller, or a proper prefix. -/
def LexBelow [LT α] (xs ys : List α) : Prop :=
  (∃ i, i < xs.length ∧ i < ys.length ∧ (∀ j, j < i → xs[j]? = ys[j]?) ∧
      ∃ x y, xs[i]? = some x ∧ ys[i]? = some y ∧ x < y) ∨
    (xs.length < ys.length ∧ ∀ j, j < xs.length → xs[j]? = ys[j]?)


/-! ## Raw block lemmas -/

theorem store_length (p : ArrayPtr α) (i : Nat) (x : α) :
    (p.store i x).raw_ptr_.length = p.raw_ptr_.length := by
  unfold ArrayPtr.store
  split <;> simp

theorem store_getElem? (p : ArrayPtr α) (i j : Nat) (x : α) :
    (p.store i x).raw_ptr_[j]? =
      if i = j ∧ i < p.raw_ptr_.length then some x else p.raw_ptr_[j]? := by
  unfold ArrayPtr.store
  by_cases h : i < p.raw_ptr_.length
  · simp only [h, if_true, and_true, List.getElem?_set]
  · simp only [h, if_false, and_false]

theorem load_of_lt (p : ArrayPtr α) (i : Nat) (h : i < p.raw_ptr_.length) :
    p.load i = .ok (p.raw_ptr_[i]) := by
  unfold ArrayPtr.load
  rw [List.getElem?_eq_getElem h]

theorem alloc_length (E : Env α) (n : Nat) : (ArrayPtr.alloc E n).raw_ptr_.length = n := by
  simp [ArrayPtr.alloc]

theorem fill_loop_getElem? (x : α) (n : Nat) : ∀ (p : ArrayPtr α) (first j : Nat),
    (fill_loop p x n first).raw_ptr_[j]? =
      if first ≤ j ∧ j < first + n ∧ j < p.raw_ptr_.length then some x
      else p.raw_ptr_[j]? := by
  induction n with
  | zero =>
    intro p first j
    simp only [fill_loop]
    rw [if_neg (by omega)]
  | succ n ih =>
    intro p first j
    simp only [fill_loop]
    rw [ih, store_length, store_getElem?]
    by_cases h1 : first = j
    · subst h1
      by_cases h2 : first < p.raw_ptr_.length
      · simp [h2]
      · simp [h2]
    · by_cases h2 : first + 1 ≤ j ∧ j < first + 1 + n ∧ j < p.raw_ptr_.length
      · have h3 : first ≤ j ∧ j < first + (n + 1) ∧ j < p.raw_ptr_.length := by omega
        simp [h2, h3]
      · have h3 : ¬ (first ≤ j ∧ j < first + (n + 1) ∧ j < p.raw_ptr_.length) := by omega
        simp [h1, h2, h3]

theorem copy_into_spec (src : List α) (n : Nat) : ∀ (dst : ArrayPtr α) (first d : Nat),
    first + n ≤ src.length →
    ∃ q, copy_into src dst n first d = .ok q ∧
      q.raw_ptr_.length = dst.raw_ptr_.length ∧
      ∀ j, q.raw_ptr_[j]? =
        if d ≤ j ∧ j < d + n ∧ j < dst.raw_ptr_.length then src[first + (j - d)]?
        else dst.raw_ptr_[j]? := by
  induction n with
  | zero =>
    intro dst first d _
    refine ⟨dst, rfl, rfl, fun j => ?_⟩
    rw [if_neg (by omega)]
  | succ n ih =>
    intro dst first d h
    have hf : first < src.length := by omega
    obtain ⟨q, hq, hlen, hget⟩ := ih (dst.store d src[first]) (first + 1) (d + 1) (by omega)
    refine ⟨q, ?_, ?_, fun j => ?_⟩
    · simp only [copy_into, List.getElem?_eq_getElem hf]; exact hq
    · rw [hlen, store_length]
    · rw [hget, store_length, store_getElem?]
      by_cases h1 : d = j
      · subst h1
        by_cases h2 : d < dst.raw_ptr_.length
        · simp [h2, List.getElem?_eq_getElem hf]
        · simp [h2]
      · by_cases h2 : d + 1 ≤ j ∧ j < d + 1 + n ∧ j < dst.raw_ptr_.length
        · have h3 : d ≤ j ∧ j < d + (n + 1) ∧ j < dst.raw_ptr_.length := by omega
          have h4 : first + 1 + (j - (d + 1)) = first + (j - d) := by omega
          simp [h2, h3, h4]
        · have h3 : ¬ (d ≤ j ∧ j < d + (n + 1) ∧ j < dst.raw_ptr_.length) := by omega
          simp [h1, h2, h3]

theorem copy_loop_ok (n : Nat) : ∀ (p : ArrayPtr α) (first d : Nat),
    first + n ≤ p.raw_ptr_.length →
    ∃ q, copy_loop p n first d = .ok q ∧ q.raw_ptr_.length = p.raw_ptr_.length := by
  induction n with
  | zero => intro p first d _; exact ⟨p, rfl, rfl⟩
  | succ n ih =>
    intro p first d h
    have hf : first < p.raw_ptr_.length := by omega
    obtain ⟨q, hq, hlen⟩ := ih (p.store d p.raw_ptr_[first]) (first + 1) (d + 1)
      (by rw [store_length]; omega)
    refine ⟨q, ?_, ?_⟩
    · simp only [copy_loop, load_of_lt p first hf]; exact hq
    · rw [hlen, store_length]

theorem move_loop_ok (E : Env α) (n : Nat) : ∀ (p : ArrayPtr α) (first d : Nat),
    first + n ≤ p.raw_ptr_.length →
    ∃ q, move_loop E p n first d = .ok q ∧ q.raw_ptr_.length = p.raw_ptr_.length := by
  induction n with
  | zero => intro p first d _; exact ⟨p, rfl, rfl⟩
  | succ n ih =>
    intro p first d h
    have hf : first < p.raw_ptr_.length := by omega
    obtain ⟨q, hq, hlen⟩ := ih
      ((p.store d p.raw_ptr_[first]).store first (E.moved p.raw_ptr_[first]))
      (first + 1) (d + 1) (by rw [store_length, store_length]; omega)
    refine ⟨q, ?_, ?_⟩
    · simp only [move_loop, load_of_lt p first hf]; exact hq
    · rw [hlen, store_length, store_length]

theorem move_loop_left (E : Env α) (n : Nat) : ∀ (p : ArrayPtr α) (i : Nat),
    i + 1 + n ≤ p.raw_ptr_.length →
    ∃ q, move_loop E p n (i + 1) i = .ok q ∧
      q.raw_ptr_.length = p.raw_ptr_.length ∧ q.stray = p.stray ∧
      ∀ j, q.raw_ptr_[j]? =
        if j < i then p.raw_ptr_[j]?
        else if j < i + n then p.raw_ptr_[j + 1]?
        else if j = i + n ∧ 0 < n then (p.raw_ptr_[i + n]?).map E.moved
        else p.raw_ptr_[j]? := by
  induction n with
  | zero =>
    intro p i _
    refine ⟨p, rfl, rfl, rfl, fun j => ?_⟩
    by_cases h1 : j < i
    · simp [h1]
    · rw [if_neg h1, if_neg (by omega), if_neg (by omega)]
  | succ n ih =>
    intro p i h
    have hf : i + 1 < p.raw_ptr_.length := by omega
    have hi : i < p.raw_ptr_.length := by omega
    let p1 := (p.store i p.raw_ptr_[i + 1]).store (i + 1) (E.moved p.raw_ptr_[i + 1])
    have hl1 : p1.raw_ptr_.length = p.raw_ptr_.length := by
      simp only [p1, store_length]
    have hs1 : p1.stray = p.stray := by
      simp only [p1, ArrayPtr.store, hi, List.length_set, hf, if_true]
    have hg1 : ∀ j, p1.raw_ptr_[j]? =
        if j = i then some p.raw_ptr_[i + 1]
        else if j = i + 1 then some (E.moved p.raw_ptr_[i + 1])
        else p.raw_ptr_[j]? := by
      intro j
      simp only [p1, store_getElem?, store_length]
      by_cases a : j = i
      · subst a; simp [hi]
      · by_cases b : j = i + 1
        · subst b; simp [hf]
        · have a2 : ¬ i = j := fun e => a e.symm
          have b2 : ¬ i + 1 = j := fun e => b e.symm
          simp [a, b, a2, b2]
    obtain ⟨q, hq, hlen, hstray, hget⟩ := ih p1 (i + 1) (by rw [hl1]; omega)
    refine ⟨q, ?_, ?_, ?_, fun j => ?_⟩
    · simp only [move_loop, load_of_lt p (i + 1) hf]; exact hq
    · rw [hlen, hl1]
    · rw [hstray, hs1]
    · rw [hget]
      simp only [hg1]
      split_ifs <;> first
        | rfl
        | omega
        | (subst_vars; simp only [List.getElem?_eq_getElem hf])
        | (congr 2; omega)
        | (have hn : n = 0 := by omega
           subst hn
           simp [List.getElem?_eq_getElem hf])

theorem Resize_fields (S : SizeT) (E : Env α) (v w : SimpleVector α) (m : Nat)
    (h : v.Resize S E m = .ok w) :
    w.size_ = m ∧
      w.capacity_ = if m ≤ v.capacity_ ∨ m < v.size_ then v.capacity_ else S.mul 2 m := by
  unfold SimpleVector.Resize at h
  by_cases h1 : m < v.size_
  · rw [if_pos h1] at h
    injection h with h; subst h
    simp [h1]
  · rw [if_neg h1] at h
    by_cases h2 : m ≤ v.capacity_
    · rw [if_pos h2] at h
      injection h with h; subst h
      simp [h2]
    · rw [if_neg h2] at h
      split at h
      · injection h with h; subst h
        simp [h1, h2]
      · cases h

theorem Resize_grow (S : SizeT) (E : Env α) (v : SimpleVector α) (m : Nat)
    (hlen : v.size_ ≤ v.arr_.raw_ptr_.length) (h1 : ¬ m < v.size_) (h2 : ¬ m ≤ v.capacity_) :
    ∃ tmp, v.Resize S E m = .ok ⟨tmp, m, S.mul 2 m⟩ ∧
      tmp.raw_ptr_.length = S.mul 2 m ∧
      ∀ j, tmp.raw_ptr_[j]? =
        if j < v.size_ ∧ j < S.mul 2 m then v.arr_.raw_ptr_[j]?
        else (ArrayPtr.alloc E (S.mul 2 m)).raw_ptr_[j]? := by
  obtain ⟨q, hq, hl, hg⟩ := copy_into_spec v.arr_.raw_ptr_ v.size_
    (ArrayPtr.alloc E (S.mul 2 m)) 0 0 (by omega)
  refine ⟨q, ?_, ?_, fun j => ?_⟩
  · unfold SimpleVector.Resize
    rw [if_neg h1, if_neg h2]
    simp only [SimpleVector.end_, hq]
  · rw [hl, alloc_length]
  · rw [hg, alloc_length]
    simp

theorem alloc_getElem? (E : Env α) (n j : Nat) :
    (ArrayPtr.alloc E n).raw_ptr_[j]? = if j < n then some (E.fresh j) else none := by
  unfold ArrayPtr.alloc
  simp only [List.getElem?_map]
  by_cases h : j < n
  · simp [h, List.getElem?_range h]
  · simp [h, List.getElem?_eq_none (l := List.range n) (by simpa using h)]

theorem take_congr (a b : List α) (n : Nat) (h : ∀ j, j < n → a[j]? = b[j]?) :
    a.take n = b.take n := by
  apply List.ext_getElem?
  intro j
  simp only [List.getElem?_take]
  by_cases hj : j < n
  · rw [if_pos hj, if_pos hj, h j hj]
  · rw [if_neg hj, if_neg hj]

theorem take_succ_store (p : ArrayPtr α) (n : Nat) (x : α) (hn : n < p.raw_ptr_.length) :
    (p.store n x).raw_ptr_.take (n + 1) = p.raw_ptr_.take n ++ [x] := by
  apply List.ext_getElem?
  intro j
  have hl : (List.take n p.raw_ptr_).length = n := by
    rw [List.length_take]; omega
  rw [List.getElem?_take, store_getElem?, List.getElem?_append, hl, List.getElem?_take]
  by_cases h1 : j < n
  · rw [if_pos (by omega), if_neg (by omega), if_pos h1, if_pos h1]
  · rw [if_neg h1]
    by_cases h2 : j = n
    · subst h2
      rw [if_pos (by omega), if_pos ⟨rfl, hn⟩]
      simp
    · rw [if_neg (by omega)]
      have : 1 ≤ j - n := by omega
      rw [List.getElem?_eq_none (by simpa using this)]

theorem Resize_grow_live (E : Env α) (v : SimpleVector α) (m : Nat)
    (hwf : v.WF) (h2 : v.capacity_ < m) :
    ∃ tmp, v.Resize .unbounded E m = .ok ⟨tmp, m, 2 * m⟩ ∧
      tmp.raw_ptr_.length = 2 * m ∧
      tmp.raw_ptr_.take v.size_ = v.live ∧
      ∀ j, v.size_ ≤ j → j < 2 * m → tmp.raw_ptr_[j]? = some (E.fresh j) := by
  obtain ⟨hsc, hcl⟩ := hwf
  obtain ⟨tmp, hr, hl, hg⟩ := Resize_grow .unbounded E v m (by omega) (by omega) (by omega)
  simp only [SizeT.mul] at hr hl hg
  refine ⟨tmp, hr, hl, ?_, ?_⟩
  · apply take_congr
    intro j hj
    rw [hg, if_pos ⟨hj, by omega⟩]
  · intro j h1 h3
    rw [hg, if_neg (by omega), alloc_getElem?, if_pos h3]

theorem Resize_live (E : Env α) (v : SimpleVector α) (m : Nat) (hwf : v.WF) :
    ∃ w, v.Resize .unbounded E m = .ok w ∧ w.size_ = m ∧
      (m < v.size_ → w.live = v.live.take m) ∧
      (v.size_ ≤ m → m ≤ v.capacity_ → w.live = v.live ++ List.replicate (m - v.size_) E.dflt) ∧
      (v.capacity_ < m →
        w.live = v.live ++ (List.range' v.size_ (m - v.size_)).map E.fresh) := by
  have hwf2 := hwf
  obtain ⟨hsc, hcl⟩ := hwf
  have hvl : v.live.length = v.size_ := by
    simp only [SimpleVector.live, List.length_take]; omega
  by_cases h1 : m < v.size_
  · refine ⟨{ v with size_ := m }, ?_, rfl, ?_, ?_, ?_⟩
    · unfold SimpleVector.Resize; rw [if_pos h1]
    · intro _
      show v.arr_.raw_ptr_.take m = (v.arr_.raw_ptr_.take v.size_).take m
      rw [List.take_take, Nat.min_eq_left (by omega)]
    · intro h; omega
    · intro h; omega
  · by_cases h2 : m ≤ v.capacity_
    · refine ⟨{ v with arr_ := fill_loop v.arr_ E.dflt m v.size_, size_ := m }, ?_, rfl, ?_, ?_, ?_⟩
      · unfold SimpleVector.Resize; rw [if_neg h1, if_pos h2]; rfl
      · intro h; omega
      · intro _ _
        show (fill_loop v.arr_ E.dflt m v.size_).raw_ptr_.take m = _
        apply List.ext_getElem?
        intro j
        rw [List.getElem?_take, fill_loop_getElem?, List.getElem?_append, hvl,
          List.getElem?_replicate]
        simp only [SimpleVector.live, List.getElem?_take]
        split_ifs <;> first
          | rfl
          | omega
      · intro h; omega
    · obtain ⟨tmp, hr, hl, ht, hf⟩ := Resize_grow_live E v m hwf2 (by omega)
      refine ⟨⟨tmp, m, 2 * m⟩, hr, rfl, ?_, ?_, ?_⟩
      · intro h; omega
      · intro _ h; omega
      · intro _
        show tmp.raw_ptr_.take m = _
        apply List.ext_getElem?
        intro j
        rw [List.getElem?_take, List.getElem?_append, hvl, List.getElem?_map]
        by_cases c1 : j < v.size_
        · rw [if_pos (by omega), if_pos c1, ← ht, List.getElem?_take, if_pos c1]
        · rw [if_neg c1]
          by_cases c2 : j < m
          · rw [if_pos c2, hf j (by omega) (by omega),
              List.getElem?_range' _ 1 (by omega : j - v.size_ < m - v.size_)]
            simp only [Option.map_some', Nat.one_mul]
            congr 2
            omega
          · rw [if_neg c2, List.getElem?_eq_none (by rw [List.length_range']; omega)]
            rfl

theorem Insert_fields (E : Env α) (v : SimpleVector α) (pos : Nat) (value : α)
    (r : Nat × SimpleVector α) (h : v.Insert .unbounded E pos value = .ok r) :
    pos ≤ v.size_ ∧ r.1 = pos ∧ r.2.size_ = v.size_ + 1 ∧
      r.2.capacity_ =
        if v.size_ = 0 ∧ v.capacity_ = 0 then 1
        else if v.size_ = v.capacity_ then 2 * (v.size_ + 1) else v.capacity_ := by
  unfold SimpleVector.Insert at h
  simp only [SimpleVector.end_, SizeT.add] at h
  by_cases h0 : pos ≤ v.size_
  · rw [if_neg (not_not.mpr h0)] at h
    by_cases h1 : v.size_ = 0 ∧ v.capacity_ = 0
    · rw [if_pos h1] at h
      injection h with h; subst h
      refine ⟨h0, ?_, ?_, ?_⟩
      · show 0 = pos
        omega
      · show v.size_ + 1 = v.size_ + 1
        rfl
      · show v.capacity_ + 1 = _
        rw [if_pos h1]; omega
    · rw [if_neg h1] at h
      by_cases h2 : v.size_ = v.capacity_
      · rw [if_pos h2] at h
        cases hr : v.Resize .unbounded E (v.size_ + 1) with
        | error e => rw [hr] at h; cases h
        | ok w =>
          rw [hr] at h
          obtain ⟨hs, hc⟩ := Resize_fields .unbounded E v w _ hr
          rw [if_neg (by omega)] at hc
          simp only at h
          cases hcp : std_copy w.arr_ pos w.size_ (pos + 1) with
          | error e => rw [hcp] at h; cases h
          | ok a =>
            rw [hcp] at h
            injection h with h; subst h
            refine ⟨h0, rfl, hs, ?_⟩
            rw [if_neg h1, if_pos h2]
            exact hc
      · rw [if_neg h2] at h
        cases hcp : std_copy v.arr_ pos v.size_ (pos + 1) with
        | error e => rw [hcp] at h; cases h
        | ok a =>
          rw [hcp] at h
          injection h with h; subst h
          refine ⟨h0, rfl, rfl, ?_⟩
          rw [if_neg h1, if_neg h2]
  · rw [if_pos h0] at h
    cases h

theorem Insert_move_fields (E : Env α) (v : SimpleVector α) (pos : Nat) (value : α)
    (r : Nat × SimpleVector α × α) (h : v.Insert_move .unbounded E pos value = .ok r) :
    pos ≤ v.size_ ∧ r.1 = pos ∧ r.2.1.size_ = v.size_ + 1 ∧
      r.2.1.capacity_ =
        if v.size_ = 0 ∧ v.capacity_ = 0 then 1
        else if v.size_ = v.capacity_ then 2 * (v.size_ + 1) else v.capacity_ := by
  unfold SimpleVector.Insert_move at h
  simp only [SimpleVector.end_, SizeT.add] at h
  by_cases h0 : pos ≤ v.size_
  · rw [if_neg (not_not.mpr h0)] at h
    by_cases h1 : v.size_ = 0 ∧ v.capacity_ = 0
    · rw [if_pos h1] at h
      injection h with h; subst h
      refine ⟨h0, ?_, ?_, ?_⟩
      · show 0 = pos
        omega
      · show v.size_ + 1 = v.size_ + 1
        rfl
      · show v.capacity_ + 1 = _
        rw [if_pos h1]; omega
    · rw [if_neg h1] at h
      by_cases h2 : v.size_ = v.capacity_
      · rw [if_pos h2] at h
        cases hr : v.Resize .unbounded E (v.size_ + 1) with
        | error e => rw [hr] at h; cases h
        | ok w =>
          rw [hr] at h
          obtain ⟨hs, hc⟩ := Resize_fields .unbounded E v w _ hr
          rw [if_neg (by omega)] at hc
          simp only at h
          cases hcp : std_move E w.arr_ pos w.size_ (pos + 1) with
          | error e => rw [hcp] at h; cases h
          | ok a =>
            rw [hcp] at h
            injection h with h; subst h
            refine ⟨h0, rfl, hs, ?_⟩
            rw [if_neg h1, if_pos h2]
            exact hc
      · rw [if_neg h2] at h
        cases hcp : std_move E v.arr_ pos v.size_ (pos + 1) with
        | error e => rw [hcp] at h; cases h
        | ok a =>
          rw [hcp] at h
          injection h with h; subst h
          refine ⟨h0, rfl, rfl, ?_⟩
          rw [if_neg h1, if_neg h2]
  · rw [if_pos h0] at h
    cases h

theorem Erase_fields (E : Env α) (v : SimpleVector α) (pos : Nat)
    (r : Nat × SimpleVector α) (h : v.Erase .unbounded E pos = .ok r) :
    pos < v.size_ ∧ r.1 = pos ∧ r.2.size_ = v.size_ - 1 ∧ r.2.capacity_ = v.capacity_ := by
  unfold SimpleVector.Erase at h
  simp only [SimpleVector.end_, SizeT.sub] at h
  by_cases h0 : pos < v.size_
  · rw [if_neg (not_not.mpr h0)] at h
    cases hm : std_move E v.arr_ (pos + 1) v.size_ pos with
    | error e => rw [hm] at h; cases h
    | ok a =>
      rw [hm] at h
      injection h with h; subst h
      exact ⟨h0, rfl, rfl, rfl⟩
  · rw [if_pos h0] at h
    cases h

theorem PushBack_fields (E : Env α) (v w : SimpleVector α) (item : α)
    (h : v.PushBack .unbounded E item = .ok w) :
    w.size_ = v.size_ + 1 ∧
      w.capacity_ = if v.size_ = v.capacity_ then 2 * (v.size_ + 1) else v.capacity_ := by
  unfold SimpleVector.PushBack at h
  simp only [SizeT.add] at h
  by_cases h2 : v.size_ = v.capacity_
  · rw [if_pos h2] at h
    cases hr : v.Resize .unbounded E (v.size_ + 1) with
    | error e => rw [hr] at h; cases h
    | ok u =>
      rw [hr] at h
      obtain ⟨hs, hc⟩ := Resize_fields .unbounded E v u _ hr
      rw [if_neg (by omega)] at hc
      injection h with h; subst h
      rw [if_pos h2]
      exact ⟨hs, hc⟩
  · rw [if_neg h2] at h
    injection h with h; subst h
    rw [if_neg h2]
    exact ⟨rfl, rfl⟩

theorem PushBack_move_eq (S : SizeT) (E : Env α) (v : SimpleVector α) (item : α) :
    v.PushBack_move S E item = (v.PushBack S E item).map (fun w => (w, E.moved item)) := by
  unfold SimpleVector.PushBack_move SimpleVector.PushBack
  by_cases h2 : v.size_ = v.capacity_
  · rw [if_pos h2, if_pos h2]
    cases v.Resize S E (S.add v.size_ 1) <;> rfl
  · rw [if_neg h2, if_neg h2]; rfl

theorem copy_fields (E : Env α) (o w : SimpleVector α) (h : SimpleVector.copy E o = .ok w) :
    w.size_ = o.size_ ∧ w.capacity_ = o.size_ := by
  unfold SimpleVector.copy at h
  split at h
  · injection h with h; subst h; exact ⟨rfl, rfl⟩
  · cases h

theorem copy_total (E : Env α) (o : SimpleVector α) (hwf : o.WF) :
    ∃ w, SimpleVector.copy E o = .ok w ∧ w.live = o.live := by
  obtain ⟨hsc, hcl⟩ := hwf
  obtain ⟨q, hq, hl, hg⟩ := copy_into_spec o.arr_.raw_ptr_ o.size_
    (ArrayPtr.alloc E o.size_) 0 0 (by omega)
  refine ⟨⟨q, o.size_, o.size_⟩, ?_, ?_⟩
  · unfold SimpleVector.copy
    simp only [hq]
  · show q.raw_ptr_.take o.size_ = o.arr_.raw_ptr_.take o.size_
    apply take_congr
    intro j hj
    rw [hg, alloc_length, if_pos ⟨by omega, by omega, by omega⟩]
    simp

theorem of_list_total (E : Env α) (xs : List α) :
    ∃ w, SimpleVector.of_list E xs = .ok w ∧ w.size_ = xs.length ∧
      w.capacity_ = xs.length ∧ w.arr_.raw_ptr_ = xs := by
  obtain ⟨q, hq, hl, hg⟩ := copy_into_spec xs xs.length
    (ArrayPtr.alloc E xs.length) 0 0 (by omega)
  refine ⟨⟨q, xs.length, xs.length⟩, ?_, rfl, rfl, ?_⟩
  · unfold SimpleVector.of_list
    simp only [hq]
  · show q.raw_ptr_ = xs
    apply List.ext_getElem?
    intro j
    rw [hg, alloc_length]
    by_cases hj : j < xs.length
    · rw [if_pos ⟨by omega, by omega, hj⟩]
      simp
    · rw [if_neg (by omega), alloc_getElem?, if_neg hj,
        List.getElem?_eq_none (by omega)]

theorem Resize_total (E : Env α) (v : SimpleVector α) (m : Nat) (hwf : v.WF) :
    ∃ w, v.Resize .unbounded E m = .ok w := by
  obtain ⟨hsc, hcl⟩ := hwf
  by_cases h1 : m < v.size_
  · exact ⟨_, by unfold SimpleVector.Resize; rw [if_pos h1]⟩
  · by_cases h2 : m ≤ v.capacity_
    · exact ⟨_, by unfold SimpleVector.Resize; rw [if_neg h1, if_pos h2]⟩
    · obtain ⟨tmp, hr, _⟩ := Resize_grow .unbounded E v m (by omega) h1 h2
      exact ⟨_, hr⟩

theorem Reserve_total (E : Env α) (v : SimpleVector α) (k : Nat) (hwf : v.WF) :
    ∃ w, v.Reserve E k = .ok w := by
  obtain ⟨hsc, hcl⟩ := hwf
  by_cases hk : k > v.capacity_
  · obtain ⟨q, hq, _⟩ := copy_into_spec v.arr_.raw_ptr_ v.size_
      (ArrayPtr.alloc E k) 0 0 (by omega)
    refine ⟨⟨q, v.size_, k⟩, ?_⟩
    unfold SimpleVector.Reserve
    rw [if_pos hk]
    simp only [SimpleVector.end_, hq]
  · exact ⟨v, by unfold SimpleVector.Reserve; rw [if_neg hk]⟩

theorem Insert_total (E : Env α) (v : SimpleVector α) (pos : Nat) (value : α)
    (hwf : v.WF) (hpos : pos ≤ v.size_) :
    (∃ r, v.Insert .unbounded E pos value = .ok r) ∧
      ∃ r, v.Insert_move .unbounded E pos value = .ok r := by
  have hwf2 := hwf
  obtain ⟨hsc, hcl⟩ := hwf
  unfold SimpleVector.Insert SimpleVector.Insert_move
  simp only [SimpleVector.end_, SizeT.add]
  rw [if_neg (not_not.mpr hpos), if_neg (not_not.mpr hpos)]
  by_cases h1 : v.size_ = 0 ∧ v.capacity_ = 0
  · rw [if_pos h1, if_pos h1]
    exact ⟨⟨_, rfl⟩, ⟨_, rfl⟩⟩
  · rw [if_neg h1, if_neg h1]
    by_cases h2 : v.size_ = v.capacity_
    · rw [if_pos h2, if_pos h2]
      obtain ⟨tmp, hr, hl, _⟩ := Resize_grow_live E v (v.size_ + 1) hwf2 (by omega)
      rw [hr]
      obtain ⟨a, ha, _⟩ := copy_loop_ok (v.size_ + 1 - pos) tmp pos (pos + 1) (by omega)
      obtain ⟨b, hb, _⟩ := move_loop_ok E (v.size_ + 1 - pos) tmp pos (pos + 1) (by omega)
      simp only [std_copy, std_move, ha, hb]
      exact ⟨⟨_, rfl⟩, ⟨_, rfl⟩⟩
    · rw [if_neg h2, if_neg h2]
      obtain ⟨a, ha, _⟩ := copy_loop_ok (v.size_ - pos) v.arr_ pos (pos + 1) (by omega)
      obtain ⟨b, hb, _⟩ := move_loop_ok E (v.size_ - pos) v.arr_ pos (pos + 1) (by omega)
      simp only [std_copy, std_move, ha, hb]
      exact ⟨⟨_, rfl⟩, ⟨_, rfl⟩⟩

theorem Erase_total (E : Env α) (v : SimpleVector α) (pos : Nat)
    (hwf : v.WF) (hpos : pos < v.size_) :
    ∃ r, v.Erase .unbounded E pos = .ok r := by
  obtain ⟨hsc, hcl⟩ := hwf
  obtain ⟨a, ha, _⟩ := move_loop_ok E (v.size_ - (pos + 1)) v.arr_ (pos + 1) pos (by omega)
  unfold SimpleVector.Erase
  simp only [SimpleVector.end_, std_move, ha]
  rw [if_neg (not_not.mpr hpos)]
  exact ⟨_, rfl⟩

theorem store_stray (p : ArrayPtr α) (i : Nat) (x : α) (h : i < p.raw_ptr_.length) :
    (p.store i x).stray = p.stray := by
  unfold ArrayPtr.store
  rw [if_pos h]

theorem copy_into_stray (src : List α) (n : Nat) : ∀ (dst q : ArrayPtr α) (first d : Nat),
    d + n ≤ dst.raw_ptr_.length → copy_into src dst n first d = .ok q →
    q.stray = dst.stray := by
  induction n with
  | zero =>
    intro dst q first d _ h
    simp only [copy_into] at h
    injection h with h; subst h; rfl
  | succ n ih =>
    intro dst q first d hd h
    simp only [copy_into] at h
    split at h
    · rename_i x _
      rw [ih (dst.store d x) q (first + 1) (d + 1) (by rw [store_length]; omega) h,
        store_stray dst d x (by omega)]
    · cases h

theorem of_list_eq_lit (E : Env α) (xs : List α) :
    SimpleVector.of_list E xs = .ok (lit xs) := by
  obtain ⟨w, hw, h1, h2, h3⟩ := of_list_total E xs
  rw [hw]
  have hs : w.arr_.stray = [] := by
    unfold SimpleVector.of_list at hw
    split at hw
    · rename_i a ha
      injection hw with hw; subst hw
      exact copy_into_stray xs xs.length (ArrayPtr.alloc E xs.length) a 0 0
        (by rw [alloc_length]; omega) ha
    · cases hw
  cases w with
  | mk arr s c =>
    cases arr with
    | mk raw st =>
      simp only at h1 h2 h3 hs
      subst h1 h2 h3 hs
      rfl

theorem PushBack_post (E : Env α) (v : SimpleVector α) (item : α) (hwf : v.WF) :
    ∃ w, v.PushBack .unbounded E item = .ok w ∧
      v.PushBack_move .unbounded E item = .ok (w, E.moved item) ∧
      w.size_ = v.size_ + 1 ∧
      w.live = v.live ++ [item] ∧
      (v.size_ < v.capacity_ → w.capacity_ = v.capacity_) ∧
      (v.size_ = v.capacity_ → w.capacity_ = 2 * (v.size_ + 1)) := by
  have hwf2 := hwf
  obtain ⟨hsc, hcl⟩ := hwf
  by_cases hfull : v.size_ = v.capacity_
  · obtain ⟨tmp, hr, hl, ht, _⟩ := Resize_grow_live E v (v.size_ + 1) hwf2 (by omega)
    refine ⟨⟨tmp.store v.size_ item, v.size_ + 1, 2 * (v.size_ + 1)⟩, ?_, ?_, rfl, ?_, ?_, ?_⟩
    · unfold SimpleVector.PushBack
      rw [if_pos hfull]
      simp only [SizeT.add, hr, SizeT.sub, Nat.add_sub_cancel]
    · unfold SimpleVector.PushBack_move
      rw [if_pos hfull]
      simp only [SizeT.add, hr, SizeT.sub, Nat.add_sub_cancel]
    · show (tmp.store v.size_ item).raw_ptr_.take (v.size_ + 1) = _
      rw [take_succ_store tmp v.size_ item (by omega), ht]
    · intro h; omega
    · intro _; rfl
  · refine ⟨⟨v.arr_.store v.size_ item, v.size_ + 1, v.capacity_⟩, ?_, ?_, rfl, ?_, ?_, ?_⟩
    · unfold SimpleVector.PushBack
      rw [if_neg hfull]
      simp only [SizeT.add]
    · unfold SimpleVector.PushBack_move
      rw [if_neg hfull]
      simp only [SizeT.add]
    · show (v.arr_.store v.size_ item).raw_ptr_.take (v.size_ + 1) = _
      rw [take_succ_store v.arr_ v.size_ item (by omega)]
      rfl
    · intro _; rfl
    · intro h; exact absurd h hfull


/-! ## Well-formedness is kept -/

theorem drop_take_succ (l : List α) (i n : Nat) (h : i < l.length) :
    (l.drop i).take (n + 1) = l[i] :: (l.drop (i + 1)).take n := by
  rw [List.drop_eq_getElem_cons h, List.take_succ_cons]

theorem equal_loop_spec [DecidableEq α] (a b : ArrayPtr α) (n : Nat) : ∀ (i j : Nat),
    i + n ≤ a.raw_ptr_.length → j + n ≤ b.raw_ptr_.length →
    equal_loop a b n i j =
      .ok (decide ((a.raw_ptr_.drop i).take n = (b.raw_ptr_.drop j).take n)) := by
  induction n with
  | zero =>
    intro i j _ _
    simp [equal_loop]
  | succ n ih =>
    intro i j hi hj
    have hia : i < a.raw_ptr_.length := by omega
    have hjb : j < b.raw_ptr_.length := by omega
    simp only [equal_loop, load_of_lt a i hia, load_of_lt b j hjb]
    rw [drop_take_succ _ _ _ hia, drop_take_succ _ _ _ hjb]
    by_cases hxy : a.raw_ptr_[i] = b.raw_ptr_[j]
    · rw [if_pos hxy, ih (i + 1) (j + 1) (by omega) (by omega)]
      simp [hxy]
    · rw [if_neg hxy]
      simp [hxy]

theorem lex_loop_spec [LT α] [DecidableRel (fun x y : α => x < y)] (a b : ArrayPtr α)
    (n1 : Nat) : ∀ (n2 i j : Nat),
    i + n1 ≤ a.raw_ptr_.length → j + n2 ≤ b.raw_ptr_.length →
    ∃ r, lex_loop a b n1 n2 i j = .ok r ∧
      (r = true ↔ List.lt ((a.raw_ptr_.drop i).take n1) ((b.raw_ptr_.drop j).take n2)) := by
  induction n1 with
  | zero =>
    intro n2 i j _ hj
    refine ⟨n2 != 0, by simp only [lex_loop], ?_⟩
    cases n2 with
    | zero =>
      simp only [List.take_zero]
      constructor
      · intro h; cases h
      · intro h; cases h
    | succ n2 =>
      have hjb : j < b.raw_ptr_.length := by omega
      rw [drop_take_succ _ _ _ hjb, List.take_zero]
      constructor
      · intro _; exact List.lt.nil _ _
      · intro _; rfl
  | succ n1 ih =>
    intro n2 i j hi hj
    have hia : i < a.raw_ptr_.length := by omega
    cases n2 with
    | zero =>
      refine ⟨false, by simp only [lex_loop], ?_⟩
      rw [drop_take_succ _ _ _ hia, List.take_zero]
      constructor
      · intro h; cases h
      · intro h; cases h
    | succ n2 =>
      have hjb : j < b.raw_ptr_.length := by omega
      simp only [lex_loop, load_of_lt a i hia, load_of_lt b j hjb]
      rw [drop_take_succ _ _ _ hia, drop_take_succ _ _ _ hjb]
      by_cases h1 : a.raw_ptr_[i] < b.raw_ptr_[j]
      · rw [if_pos h1]
        exact ⟨true, rfl, fun _ => List.lt.head _ _ h1, fun _ => rfl⟩
      · rw [if_neg h1]
        by_cases h2 : b.raw_ptr_[j] < a.raw_ptr_[i]
        · rw [if_pos h2]
          refine ⟨false, rfl, ?_, ?_⟩
          · intro h; cases h
          · intro h
            cases h with
            | head _ _ h => exact absurd h h1
            | tail _ h _ => exact absurd h2 h
        · rw [if_neg h2]
          obtain ⟨r, hr, hiff⟩ := ih n2 (i + 1) (j + 1) (by omega) (by omega)
          refine ⟨r, hr, ?_, ?_⟩
          · intro h; exact List.lt.tail h1 h2 (hiff.mp h)
          · intro h
            cases h with
            | head _ _ h => exact absurd h h1
            | tail _ _ h => exact hiff.mpr h

theorem lexBelow_of_lt [LinearOrder α] {xs ys : List α} (h : List.lt xs ys) :
    LexBelow xs ys := by
  induction h with
  | nil b bs =>
    right
    exact ⟨by simp, fun j hj => absurd hj (Nat.not_lt_zero j)⟩
  | head as bs hab =>
    left
    exact ⟨0, by simp, by simp, fun j hj => absurd hj (Nat.not_lt_zero j),
      _, _, List.getElem?_cons_zero, List.getElem?_cons_zero, hab⟩
  | tail h1 h2 _ ih =>
    have hab := le_antisymm (not_lt.mp h2) (not_lt.mp h1)
    subst hab
    rcases ih with ⟨i, hi1, hi2, hpre, x, y, hx, hy, hxy⟩ | ⟨hlen, hpre⟩
    · left
      refine ⟨i + 1, by simpa using hi1, by simpa using hi2, ?_, x, y, by simpa using hx,
        by simpa using hy, hxy⟩
      intro j hj
      cases j with
      | zero => simp
      | succ j => simpa using hpre j (by omega)
    · right
      refine ⟨by simpa using hlen, ?_⟩
      intro j hj
      cases j with
      | zero => simp
      | succ j => simpa using hpre j (by simpa using hj)

theorem lt_of_lexBelow [LinearOrder α] : ∀ (xs ys : List α), LexBelow xs ys → List.lt xs ys := by
  intro xs
  induction xs with
  | nil =>
    intro ys h
    cases ys with
    | nil =>
      rcases h with ⟨i, hi, _⟩ | ⟨hlen, _⟩
      · exact absurd hi (Nat.not_lt_zero i)
      · exact absurd hlen (Nat.lt_irrefl _)
    | cons y ys => exact List.lt.nil y ys
  | cons x xs ih =>
    intro ys h
    cases ys with
    | nil =>
      rcases h with ⟨i, _, hi, _⟩ | ⟨hlen, _⟩
      · exact absurd hi (Nat.not_lt_zero i)
      · exact absurd hlen (Nat.not_lt_zero _)
    | cons y ys =>
      rcases h with ⟨i, hi1, hi2, hpre, a, b, ha, hb, hab⟩ | ⟨hlen, hpre⟩
      · cases i with
        | zero =>
          simp only [List.getElem?_cons_zero, Option.some.injEq] at ha hb
          subst ha hb
          exact List.lt.head _ _ hab
        | succ i =>
          have h0 := hpre 0 (by omega)
          simp only [List.getElem?_cons_zero, Option.some.injEq] at h0
          subst h0
          refine List.lt.tail (lt_irrefl x) (lt_irrefl x) (ih ys (Or.inl ?_))
          refine ⟨i, by simpa using hi1, by simpa using hi2, ?_, a, b, by simpa using ha,
            by simpa using hb, hab⟩
          intro j hj
          simpa using hpre (j + 1) (by omega)
      · have h0 := hpre 0 (by simp)
        simp only [List.getElem?_cons_zero, Option.some.injEq] at h0
        subst h0
        refine List.lt.tail (lt_irrefl x) (lt_irrefl x) (ih ys (Or.inr ?_))
        refine ⟨by simpa using hlen, ?_⟩
        intro j hj
        simpa using hpre (j + 1) (by simpa using hj)

theorem live_length (v : SimpleVector α) (h : v.size_ ≤ v.arr_.raw_ptr_.length) :
    v.live.length = v.size_ := by
  simp only [SimpleVector.live, List.length_take]
  omega

theorem op_eq_val [DecidableEq α] (a b : SimpleVector α)
    (ha : a.size_ ≤ a.arr_.raw_ptr_.length) (hb : b.size_ ≤ b.arr_.raw_ptr_.length) :
    a.op_eq b = .ok (decide (a.live = b.live)) := by
  unfold SimpleVector.op_eq std_equal
  simp only [SimpleVector.begin, SimpleVector.end_, Nat.sub_zero]
  by_cases hs : a.size_ = b.size_
  · rw [if_neg (not_not.mpr hs), equal_loop_spec a.arr_ b.arr_ a.size_ 0 0 (by omega) (by omega)]
    simp only [List.drop_zero, SimpleVector.live, hs]
  · rw [if_pos hs]
    have hne : a.live ≠ b.live := by
      intro h
      apply hs
      rw [← live_length a ha, ← live_length b hb, h]
    simp [hne]

theorem op_lt_val [LT α] [DecidableRel (fun x y : α => x < y)] (a b : SimpleVector α)
    (ha : a.size_ ≤ a.arr_.raw_ptr_.length) (hb : b.size_ ≤ b.arr_.raw_ptr_.length) :
    ∃ r, a.op_lt b = .ok r ∧ (r = true ↔ List.lt a.live b.live) := by
  obtain ⟨r, hr, hiff⟩ := lex_loop_spec a.arr_ b.arr_ a.size_ b.size_ 0 0 (by omega) (by omega)
  refine ⟨r, ?_, ?_⟩
  · unfold SimpleVector.op_lt std_lexicographical_compare
    simp only [SimpleVector.begin, SimpleVector.end_, Nat.sub_zero]
    exact hr
  · simpa only [List.drop_zero] using hiff

theorem list_lt_asymm [LinearOrder α] {xs ys : List α} (h : List.lt xs ys) :
    ¬ List.lt ys xs := by
  induction h with
  | nil b bs => intro h'; cases h'
  | head as bs hab =>
    intro h'
    cases h' with
    | head _ _ hba => exact absurd hba (lt_asymm hab)
    | tail _ h2 _ => exact absurd hab h2
  | tail h1 h2 _ ih =>
    intro h'
    cases h' with
    | head _ _ hba => exact absurd hba h2
    | tail _ _ h3 => exact ih h3

theorem list_lt_trichotomy [LinearOrder α] : ∀ (xs ys : List α),
    List.lt xs ys ∨ xs = ys ∨ List.lt ys xs := by
  intro xs
  induction xs with
  | nil =>
    intro ys
    cases ys with
    | nil => exact Or.inr (Or.inl rfl)
    | cons y ys => exact Or.inl (List.lt.nil y ys)
  | cons x xs ih =>
    intro ys
    cases ys with
    | nil => exact Or.inr (Or.inr (List.lt.nil x xs))
    | cons y ys =>
      rcases lt_trichotomy x y with hxy | hxy | hxy
      · exact Or.inl (List.lt.head _ _ hxy)
      · subst hxy
        rcases ih ys with h | h | h
        · exact Or.inl (List.lt.tail (lt_irrefl x) (lt_irrefl x) h)
        · exact Or.inr (Or.inl (by rw [h]))
        · exact Or.inr (Or.inr (List.lt.tail (lt_irrefl x) (lt_irrefl x) h))
      · exact Or.inr (Or.inr (List.lt.head _ _ hxy))

theorem live_eq_iff (a b : SimpleVector α)
    (ha : a.size_ ≤ a.arr_.raw_ptr_.length) (hb : b.size_ ≤ b.arr_.raw_ptr_.length) :
    a.live = b.live ↔ a.size_ = b.size_ ∧ ∀ i, i < a.size_ → a.live[i]? = b.live[i]? := by
  constructor
  · intro h
    refine ⟨?_, fun i _ => by rw [h]⟩
    rw [← live_length a ha, ← live_length b hb, h]
  · rintro ⟨hs, hall⟩
    apply List.ext_getElem?
    intro i
    by_cases hi : i < a.size_
    · exact hall i hi
    · rw [List.getElem?_eq_none (by rw [live_length a ha]; omega),
        List.getElem?_eq_none (by rw [live_length b hb]; omega)]


/-- C1, evaluated where it fails: `Insert` shifts the tail with `std::copy`
(`std::move` in the moving overload), which runs front to back while the
destination `[i + 1, ..)` overlaps the source `[i, ..)` from above, so the old
element `i` is carried into every later slot.  Inserting `"z"` at position 1 of
`{"a","b","c"}` returns position 1 and size 4, but leaves `{"a","z","b","b"}`
with the copying overload and `{"a","z","",""}` with the moving one, where the
claim has `{"a","z","b","c"}`. -/
theorem Insert_overlap :
    ((lit ["a", "b", "c"]).Insert .unbounded strEnv 1 "z").map
        (fun r => (r.1, r.2.size_, r.2.live)) = .ok (1, 4, ["a", "z", "b", "b"]) ∧
    ((lit ["a", "b", "c"]).Insert_move .unbounded strEnv 1 "z").map
        (fun r => (r.1, r.2.1.size_, r.2.1.live)) = .ok (1, 4, ["a", "z", "", ""]) :=
  ⟨rfl, rfl⟩

/-- C2, evaluated where it fails: on `{"a","b","c"}`, `Erase(begin)` followed by
`Insert(begin, "a")` returns with size 3 but live sequence `{"a","b","b"}`,
not the original `{"a","b","c"}`: the front-to-back `std::copy` of `Insert`
overwrites `"c"` before it is read. -/
theorem Erase_Insert_overlap :
    (((lit ["a", "b", "c"]).Erase .unbounded strEnv 0).bind
        (fun r => r.2.Insert .unbounded strEnv 0 "a")).map
        (fun r => (r.2.size_, r.2.live)) = .ok (3, ["a", "b", "b"]) :=
  rfl

/-- C3: on a well-formed vector of size `n ≥ 1`, `Erase(begin + i)` with `i < n`
returns position `i`, leaves size `n - 1` and the capacity unchanged, and the
live sequence is the old one with element `i` removed: elements before `i` stay,
elements after `i` move one slot left.  The returned position holds the old
element `i + 1` when `i < n - 1`, and is `end()` when `i = n - 1`. -/
theorem Erase_spec (E : Env α) (v : SimpleVector α) (i : Nat)
    (hwf : v.WF) (hi : i < v.size_) :
    ∃ w, v.Erase .unbounded E i = .ok (i, w) ∧
      w.size_ = v.size_ - 1 ∧
      w.capacity_ = v.capacity_ ∧
      w.live = v.live.eraseIdx i ∧
      w.live = v.live.take i ++ v.live.drop (i + 1) ∧
      (∀ j, j < i → w.live[j]? = v.live[j]?) ∧
      (∀ j, i ≤ j → j + 1 < v.size_ → w.live[j]? = v.live[j + 1]?) ∧
      (i + 1 < v.size_ → ∃ x, v.live[i + 1]? = some x ∧ w.live[i]? = some x) ∧
      (i + 1 = v.size_ → i = w.end_) := by
  obtain ⟨h1, h2⟩ := hwf
  obtain ⟨q, hq, hlen, _, hget⟩ := move_loop_left E (v.size_ - (i + 1)) v.arr_ i (by omega)
  have hlive : ∀ j : Nat, (List.take (v.size_ - 1) q.raw_ptr_)[j]? = (v.live.eraseIdx i)[j]? := by
    intro j
    simp only [SimpleVector.live, List.getElem?_take, List.getElem?_eraseIdx, hget]
    split_ifs <;> first
      | rfl
      | omega
  have hl : List.take (v.size_ - 1) q.raw_ptr_ = v.live.eraseIdx i := List.ext_getElem? hlive
  have hw : (SimpleVector.mk q (v.size_ - 1) v.capacity_).live = v.live.eraseIdx i := hl
  refine ⟨⟨q, v.size_ - 1, v.capacity_⟩, ?_, rfl, rfl, hw, ?_, ?_, ?_, ?_, ?_⟩
  · unfold SimpleVector.Erase
    simp only [SimpleVector.end_, std_move, SizeT.sub]
    rw [if_neg (by omega), hq]
  · rw [hw, List.eraseIdx_eq_take_drop_succ]
  · intro j hj
    rw [hw, List.getElem?_eraseIdx, if_pos hj]
  · intro j hj _
    rw [hw, List.getElem?_eraseIdx, if_neg (by omega)]
  · intro hlt
    have hb : i + 1 < v.live.length := by
      simp only [SimpleVector.live, List.length_take]; omega
    refine ⟨v.live[i + 1], List.getElem?_eq_getElem hb, ?_⟩
    rw [hw, List.getElem?_eraseIdx, if_neg (by omega), List.getElem?_eq_getElem hb]
  · intro he
    show i = v.size_ - 1
    omega

/-- Witness for C3: erasing position 1 of `{1,9,2,3}`. -/
theorem Erase_spec_witness :
    ∃ w, (lit [1, 9, 2, 3]).Erase .unbounded (intEnv 0) 1 = .ok (1, w) ∧
      w.size_ = 3 ∧ w.capacity_ = 4 ∧ w.live = [1, 2, 3] := by
  obtain ⟨w, h1, h2, h3, h4, _⟩ :=
    Erase_spec (intEnv 0) (lit [1, 9, 2, 3]) 1 (by decide) (by decide)
  exact ⟨w, h1, h2, h3, h4⟩

/-- C4: `size ≤ capacity` (`Inv`), sizes being unbounded naturals.  Every
constructor (default, fill, sized, initializer list, copy, reserve proxy, move)
yields it, for the moved-from source too; and every public operation (`Reserve`,
`Resize`, `PushBack`, `PopBack`, `Insert`, `Erase`, `Clear`, `swap`, copy and
move assignment) started from vectors that have it returns only vectors that
have it, for both objects where two are involved (the right-hand side of a copy
assignment is not modified).  The last conjunct records that on a well-formed
vector, with the position in range, these operations do return. -/
theorem size_le_capacity (E : Env α) :
    (SimpleVector.default : SimpleVector α).Inv ∧
    (∀ n x, (SimpleVector.filled E n x).Inv) ∧
    (∀ n, (SimpleVector.sized E n).Inv) ∧
    (∀ xs, ∃ w, SimpleVector.of_list E xs = .ok w ∧ w.Inv) ∧
    (∀ o w, SimpleVector.copy E o = .ok w → w.Inv) ∧
    (∀ n, (SimpleVector.reserved E n).Inv) ∧
    (∀ o : SimpleVector α, o.Inv → o.move_ctor.1.Inv ∧ o.move_ctor.2.Inv) ∧
    (∀ (v : SimpleVector α) k w, v.Inv → v.Reserve E k = .ok w → w.Inv) ∧
    (∀ (v : SimpleVector α) m w, v.Inv → v.Resize .unbounded E m = .ok w → w.Inv) ∧
    (∀ (v : SimpleVector α) x w, v.Inv → v.PushBack .unbounded E x = .ok w → w.Inv) ∧
    (∀ (v : SimpleVector α) x r, v.Inv → v.PushBack_move .unbounded E x = .ok r → r.1.Inv) ∧
    (∀ v : SimpleVector α, v.Inv → (v.PopBack .unbounded).Inv) ∧
    (∀ (v : SimpleVector α) i x r, v.Inv → v.Insert .unbounded E i x = .ok r → r.2.Inv) ∧
    (∀ (v : SimpleVector α) i x r, v.Inv → v.Insert_move .unbounded E i x = .ok r → r.2.1.Inv) ∧
    (∀ (v : SimpleVector α) i r, v.Inv → v.Erase .unbounded E i = .ok r → r.2.Inv) ∧
    (∀ v : SimpleVector α, v.Inv → v.Clear.Inv) ∧
    (∀ a b : SimpleVector α, a.Inv → b.Inv → (a.swap b).1.Inv ∧ (a.swap b).2.Inv) ∧
    (∀ (a b : SimpleVector α) w, a.Inv → b.Inv → a.copy_assign E b = .ok w → w.Inv) ∧
    (∀ a b : SimpleVector α, a.Inv → b.Inv →
      (a.move_assign b).1.Inv ∧ (a.move_assign b).2.Inv) ∧
    (∀ a : SimpleVector α, a.Inv → a.self_assign.Inv) ∧
    (∀ v : SimpleVector α, v.WF →
      (∃ w, SimpleVector.copy E v = .ok w) ∧
      (∀ k, ∃ w, v.Reserve E k = .ok w) ∧
      (∀ m, ∃ w, v.Resize .unbounded E m = .ok w) ∧
      (∀ x, ∃ w, v.PushBack .unbounded E x = .ok w) ∧
      (∀ x, ∃ r, v.PushBack_move .unbounded E x = .ok r) ∧
      (∀ i x, i ≤ v.size_ → ∃ r, v.Insert .unbounded E i x = .ok r) ∧
      (∀ i x, i ≤ v.size_ → ∃ r, v.Insert_move .unbounded E i x = .ok r) ∧
      (∀ i, i < v.size_ → ∃ r, v.Erase .unbounded E i = .ok r) ∧
      (∀ a : SimpleVector α, ∃ w, a.copy_assign E v = .ok w)) := by
  have hResize : ∀ (v : SimpleVector α) m w, v.Inv → v.Resize .unbounded E m = .ok w → w.Inv := by
    intro v m w hv h
    obtain ⟨hs, hc⟩ := Resize_fields .unbounded E v w m h
    unfold SimpleVector.Inv at hv ⊢
    rw [hs, hc]
    simp only [SizeT.mul]
    split_ifs <;> omega
  have hPush : ∀ (v : SimpleVector α) x w, v.Inv → v.PushBack .unbounded E x = .ok w → w.Inv := by
    intro v x w hv h
    obtain ⟨hs, hc⟩ := PushBack_fields E v w x h
    unfold SimpleVector.Inv at hv ⊢
    rw [hs, hc]
    split_ifs <;> omega
  have hCopy : ∀ (o w : SimpleVector α), SimpleVector.copy E o = .ok w → w.Inv := by
    intro o w h
    obtain ⟨hs, hc⟩ := copy_fields E o w h
    unfold SimpleVector.Inv
    rw [hs, hc]
  refine ⟨Nat.le_refl 0, fun n _ => Nat.le_refl n, fun n => Nat.le_refl n, ?_, hCopy,
    fun n => Nat.zero_le n, ?_, ?_, hResize, hPush, ?_, ?_, ?_, ?_, ?_, ?_, ?_, ?_, ?_,
    fun a ha => ha, ?_⟩
  · intro xs
    obtain ⟨w, hw, h1, h2, _⟩ := of_list_total E xs
    exact ⟨w, hw, by unfold SimpleVector.Inv; rw [h1, h2]⟩
  · intro o ho
    exact ⟨ho, Nat.le_refl 0⟩
  · intro v k w hv h
    unfold SimpleVector.Reserve at h
    unfold SimpleVector.Inv at hv ⊢
    by_cases hk : k > v.capacity_
    · rw [if_pos hk] at h
      split at h
      · injection h with h; subst h
        show v.size_ ≤ k
        omega
      · cases h
    · rw [if_neg hk] at h
      injection h with h; subst h
      exact hv
  · intro v x r hv h
    rw [PushBack_move_eq] at h
    cases hp : v.PushBack .unbounded E x with
    | error e => rw [hp] at h; cases h
    | ok w =>
      rw [hp] at h
      injection h with h; subst h
      exact hPush v x w hv hp
  · intro v hv
    unfold SimpleVector.PopBack
    unfold SimpleVector.Inv at hv ⊢
    split_ifs
    · show v.size_ - 1 ≤ v.capacity_
      omega
    · exact hv
  · intro v i x r hv h
    obtain ⟨_, _, hs, hc⟩ := Insert_fields E v i x r h
    unfold SimpleVector.Inv at hv ⊢
    rw [hs, hc]
    split_ifs <;> omega
  · intro v i x r hv h
    obtain ⟨_, _, hs, hc⟩ := Insert_move_fields E v i x r h
    unfold SimpleVector.Inv at hv ⊢
    rw [hs, hc]
    split_ifs <;> omega
  · intro v i r hv h
    obtain ⟨_, _, hs, hc⟩ := Erase_fields E v i r h
    unfold SimpleVector.Inv at hv ⊢
    rw [hs, hc]
    omega
  · intro v _
    exact Nat.zero_le _
  · intro a b ha hb
    exact ⟨hb, ha⟩
  · intro a b w ha _ h
    unfold SimpleVector.copy_assign at h
    split at h
    · injection h with h; subst h
      exact Nat.zero_le _
    · cases hc : SimpleVector.copy E b with
      | error e => rw [hc] at h; cases h
      | ok tmp =>
        rw [hc] at h
        injection h with h; subst h
        exact hCopy b tmp hc
  · intro a b _ hb
    exact ⟨hb, Nat.le_refl 0⟩
  · intro v hwf
    have hcp := copy_total E v hwf
    refine ⟨?_, fun k => Reserve_total E v k hwf, fun m => Resize_total E v m hwf, ?_, ?_,
      fun i x hi => (Insert_total E v i x hwf hi).1,
      fun i x hi => (Insert_total E v i x hwf hi).2,
      fun i hi => Erase_total E v i hwf hi, ?_⟩
    · obtain ⟨w, hw, _⟩ := hcp
      exact ⟨w, hw⟩
    · intro x
      obtain ⟨w, hw, _⟩ := PushBack_post E v x hwf
      exact ⟨w, hw⟩
    · intro x
      obtain ⟨w, _, hw, _⟩ := PushBack_post E v x hwf
      exact ⟨_, hw⟩
    · intro a
      obtain ⟨w, hw, _⟩ := hcp
      unfold SimpleVector.copy_assign
      split
      · exact ⟨_, rfl⟩
      · rw [hw]; exact ⟨_, rfl⟩

/-- Witness for C4: `Resize(5)` on `{1,2,3}` returns a vector with
`size ≤ capacity`. -/
theorem size_le_capacity_witness :
    ∃ w, (lit [1, 2, 3]).Resize .unbounded (intEnv 7) 5 = .ok w ∧ w.Inv := by
  obtain ⟨_, _, _, _, _, _, _, _, h, _⟩ := size_le_capacity (intEnv 7)
  exact ⟨_, rfl, h (lit [1, 2, 3]) 5 _ (by decide) rfl⟩

/-- C5: on a well-formed vector with live sequence `xs`, size `n` and capacity
`c`, `PushBack(v)`, by copy or by move, returns with size `n + 1` and live
sequence `xs ++ [v]`; the capacity stays `c` when `n < c` and becomes
`2 * (n + 1)` when `n = c`. -/
theorem PushBack_spec (E : Env α) (v : SimpleVector α) (item : α) (hwf : v.WF) :
    ∃ w, v.PushBack .unbounded E item = .ok w ∧
      v.PushBack_move .unbounded E item = .ok (w, E.moved item) ∧
      w.size_ = v.size_ + 1 ∧
      w.live = v.live ++ [item] ∧
      (v.size_ < v.capacity_ → w.capacity_ = v.capacity_) ∧
      (v.size_ = v.capacity_ → w.capacity_ = 2 * (v.size_ + 1)) :=
  PushBack_post E v item hwf

/-- Witness for C5: appending to a full `{1,2,3}` doubles `size + 1`. -/
theorem PushBack_spec_witness :
    ∃ w, (lit [1, 2, 3]).PushBack .unbounded (intEnv 7) 4 = .ok w ∧
      w.size_ = 4 ∧ w.live = [1, 2, 3, 4] ∧ w.capacity_ = 8 := by
  obtain ⟨w, h1, _, h3, h4, _, h6⟩ :=
    PushBack_spec (intEnv 7) (lit [1, 2, 3]) 4 (by decide)
  exact ⟨w, h1, h3, h4, h6 rfl⟩

/-- C6: on a well-formed vector, `PushBack(v)` followed at once by `PopBack()`
gives back the size and the elements at indices `[0, size)`. -/
theorem PushBack_PopBack (E : Env α) (v : SimpleVector α) (item : α) (hwf : v.WF) :
    ∃ w, v.PushBack .unbounded E item = .ok w ∧
      (w.PopBack .unbounded).size_ = v.size_ ∧
      (w.PopBack .unbounded).live = v.live ∧
      ∀ j, j < v.size_ → (w.PopBack .unbounded).arr_.raw_ptr_[j]? = v.arr_.raw_ptr_[j]? := by
  obtain ⟨w, h1, _, h3, h4, _, _⟩ := PushBack_post E v item hwf
  have hp : w.PopBack .unbounded = { w with size_ := v.size_ } := by
    unfold SimpleVector.PopBack
    rw [if_pos (by omega)]
    simp only [SizeT.sub, h3, Nat.add_sub_cancel]
  have hlive : (w.PopBack .unbounded).live = v.live := by
    rw [hp]
    show w.arr_.raw_ptr_.take v.size_ = v.live
    have h5 : w.arr_.raw_ptr_.take (v.size_ + 1) = v.live ++ [item] := by
      rw [← h3]; exact h4
    have h6 : (w.arr_.raw_ptr_.take (v.size_ + 1)).take v.size_ = v.live := by
      rw [h5, List.take_append_of_le_length (by simp [SimpleVector.live, hwf.1.trans hwf.2])]
      simp [SimpleVector.live]
    rw [← h6, List.take_take, Nat.min_eq_left (by omega)]
  refine ⟨w, h1, ?_, hlive, ?_⟩
  · rw [hp]
  · intro j hj
    have e1 : (w.PopBack .unbounded).live[j]? = (w.PopBack .unbounded).arr_.raw_ptr_[j]? := by
      rw [hp]
      simp only [SimpleVector.live, List.getElem?_take, if_pos hj]
    have e2 : v.live[j]? = v.arr_.raw_ptr_[j]? := by
      simp only [SimpleVector.live, List.getElem?_take, if_pos hj]
    rw [← e1, hlive, e2]

/-- Witness for C6: `{1,2,3}` after `PushBack(4)` and `PopBack()`. -/
theorem PushBack_PopBack_witness :
    ∃ w, (lit [1, 2, 3]).PushBack .unbounded (intEnv 7) 4 = .ok w ∧
      (w.PopBack .unbounded).size_ = 3 ∧ (w.PopBack .unbounded).live = [1, 2, 3] := by
  obtain ⟨w, h1, h2, h3, _⟩ :=
    PushBack_PopBack (intEnv 7) (lit [1, 2, 3]) 4 (by decide)
  exact ⟨w, h1, h2, h3⟩

/-- C7: on a well-formed vector with size `n`, capacity `c` and live sequence
`xs`, `Reserve(k)` returns with size `n` and live sequence `xs`, and capacity
`max c k`: nothing changes when `k ≤ c`, the capacity is exactly `k` when
`k > c`; so the capacity never decreases and is at least `k` afterwards. -/
theorem Reserve_spec (E : Env α) (v : SimpleVector α) (k : Nat) (hwf : v.WF) :
    ∃ w, v.Reserve E k = .ok w ∧
      w.size_ = v.size_ ∧
      w.live = v.live ∧
      w.capacity_ = max v.capacity_ k ∧
      (k ≤ v.capacity_ → w = v) ∧
      (v.capacity_ < k → w.capacity_ = k) ∧
      v.capacity_ ≤ w.capacity_ ∧
      k ≤ w.capacity_ := by
  obtain ⟨hsc, hcl⟩ := hwf
  by_cases hk : k > v.capacity_
  · obtain ⟨q, hq, hl, hg⟩ := copy_into_spec v.arr_.raw_ptr_ v.size_
      (ArrayPtr.alloc E k) 0 0 (by omega)
    have hr : v.Reserve E k = .ok ⟨q, v.size_, k⟩ := by
      unfold SimpleVector.Reserve
      rw [if_pos hk]
      simp only [SimpleVector.end_, hq]
    refine ⟨⟨q, v.size_, k⟩, hr, rfl, ?_, ?_, ?_, ?_, ?_, ?_⟩
    · show q.raw_ptr_.take v.size_ = v.arr_.raw_ptr_.take v.size_
      apply take_congr
      intro j hj
      rw [hg, alloc_length, if_pos ⟨by omega, by omega, by omega⟩]
      simp
    · show k = max v.capacity_ k
      omega
    · intro h; omega
    · intro _; rfl
    · show v.capacity_ ≤ k
      omega
    · exact Nat.le_refl k
  · have hr : v.Reserve E k = .ok v := by
      unfold SimpleVector.Reserve
      rw [if_neg hk]
    refine ⟨v, hr, rfl, rfl, ?_, ?_, ?_, ?_, ?_⟩
    · omega
    · intro _; rfl
    · intro h; omega
    · exact Nat.le_refl _
    · omega

/-- Witness for C7: `Reserve(10)` on `{1,2,3}`. -/
theorem Reserve_spec_witness :
    ∃ w, (lit [1, 2, 3]).Reserve (intEnv 7) 10 = .ok w ∧
      w.size_ = 3 ∧ w.live = [1, 2, 3] ∧ w.capacity_ = 10 := by
  obtain ⟨w, h1, h2, h3, _, _, h6, _⟩ :=
    Reserve_spec (intEnv 7) (lit [1, 2, 3]) 10 (by decide)
  exact ⟨w, h1, h2, h3, h6 (by decide)⟩

/-- C8, evaluated where it fails: the growth branch of `Resize` moves the live
elements into the new block and sets the size, but never writes the new
elements.  On `{1,2,3}` (size and capacity 3) with an allocator whose fresh
slots hold 7, `Resize(5)` returns size 5, capacity 10 and live sequence
`{1,2,3,7,7}`, where the claim has `{1,2,3,0,0}`. -/
theorem Resize_grow_unfilled :
    ((lit [1, 2, 3]).Resize .unbounded (intEnv 7) 5).map
        (fun w => (w.size_, w.capacity_, w.live)) = .ok (5, 10, [1, 2, 3, 7, 7]) :=
  rfl

/-- C10: `At(i)` stops with the out-of-range error exactly when `i ≥ size`; on
a well-formed vector with `i < size` it returns the live element at index `i`.
`At` only reads: it yields no new vector state. -/
theorem At_spec (v : SimpleVector α) (i : Nat) :
    (v.At i = .error .out_of_range ↔ i ≥ v.size_) ∧
      (v.WF → i < v.size_ → ∃ x, v.live[i]? = some x ∧ v.At i = .ok x) := by
  constructor
  · constructor
    · intro h
      by_contra hlt
      unfold SimpleVector.At at h
      rw [if_neg hlt] at h
      unfold ArrayPtr.load at h
      split at h
      · cases h
      · cases h
    · intro h
      unfold SimpleVector.At
      rw [if_pos h]
  · intro hwf hi
    obtain ⟨hsc, hcl⟩ := hwf
    have hb : i < v.arr_.raw_ptr_.length := by omega
    refine ⟨v.arr_.raw_ptr_[i], ?_, ?_⟩
    · simp only [SimpleVector.live, List.getElem?_take, if_pos hi, List.getElem?_eq_getElem hb]
    · unfold SimpleVector.At
      rw [if_neg (by omega)]
      exact load_of_lt v.arr_ i hb

/-- Witness for C10: on the size-1 vector left by the scenario, `At(0)` returns
the element and `At(5)` stops with the out-of-range error. -/
theorem At_spec_witness :
    (∃ x, (SimpleVector.mk ⟨[1, 2, 3, 0, 0], []⟩ 1 5).live[0]? = some x ∧
      (SimpleVector.mk ⟨[1, 2, 3, 0, 0], []⟩ 1 5).At 0 = .ok x) ∧
    (SimpleVector.mk ⟨[1, 2, 3, 0, 0], []⟩ 1 5).At 5 = .error .out_of_range :=
  ⟨(At_spec (SimpleVector.mk ⟨[1, 2, 3, 0, 0], []⟩ 1 5) 0).2 (by decide) (by decide),
    (At_spec (SimpleVector.mk ⟨[1, 2, 3, 0, 0], []⟩ 1 5) 5).1.2 (by decide)⟩

/-- C11: on well-formed vectors `a == b` returns, and it is `true` exactly when
`a.size == b.size` and `a[i] == b[i]` for every `i < a.size`.  The result is a
function of the two live ranges only: any well-formed vectors with the same
live sequences, whatever their capacities and the contents of their slots at
indices `≥ size`, compare the same. -/
theorem op_eq_spec [DecidableEq α] (a b : SimpleVector α) (ha : a.WF) (hb : b.WF) :
    ∃ r, a.op_eq b = .ok r ∧
      (r = true ↔ a.size_ = b.size_ ∧ ∀ i, i < a.size_ → a.live[i]? = b.live[i]?) ∧
      (∀ a' b' : SimpleVector α, a'.WF → b'.WF → a'.live = a.live → b'.live = b.live →
        a'.op_eq b' = .ok r) := by
  have ha' : a.size_ ≤ a.arr_.raw_ptr_.length := ha.1.trans ha.2
  have hb' : b.size_ ≤ b.arr_.raw_ptr_.length := hb.1.trans hb.2
  refine ⟨decide (a.live = b.live), op_eq_val a b ha' hb', ?_, ?_⟩
  · rw [decide_eq_true_iff]
    exact live_eq_iff a b ha' hb'
  · intro a' b' hwa hwb hla hlb
    rw [op_eq_val a' b' (hwa.1.trans hwa.2) (hwb.1.trans hwb.2), hla, hlb]

/-- Witness for C11: `{1,2,3} == {1,2,3}` is `true`, also against a vector with
spare capacity and a stale slot. -/
theorem op_eq_spec_witness :
    (lit [1, 2, 3]).op_eq (lit [1, 2, 3]) = .ok true ∧
      (SimpleVector.mk ⟨[1, 2, 3, 9], []⟩ 3 4).op_eq (lit [1, 2, 3]) = .ok true := by
  obtain ⟨r, h1, h2, h3⟩ := op_eq_spec (lit [1, 2, 3]) (lit [1, 2, 3]) (by decide) (by decide)
  have hr : r = true := h2.mpr ⟨rfl, fun _ _ => rfl⟩
  subst hr
  exact ⟨h1, h3 (SimpleVector.mk ⟨[1, 2, 3, 9], []⟩ 3 4) (lit [1, 2, 3]) (by decide) (by decide)
    rfl rfl⟩

/-- C12: on well-formed vectors over a linearly ordered element type `a < b`
returns, and it is `true` exactly when the live sequence of `a` is
lexicographically smaller: either there is an index `i < min(a.size, b.size)`
before which the two agree and at which `a[i] < b[i]`, or `a` is shorter than
`b` and agrees with it on all of `[0, a.size)`. -/
theorem op_lt_spec [LinearOrder α] (a b : SimpleVector α) (ha : a.WF) (hb : b.WF) :
    ∃ r, a.op_lt b = .ok r ∧
      (r = true ↔
        (∃ i, i < a.size_ ∧ i < b.size_ ∧ (∀ j, j < i → a.live[j]? = b.live[j]?) ∧
          ∃ x y, a.live[i]? = some x ∧ b.live[i]? = some y ∧ x < y) ∨
        (a.size_ < b.size_ ∧ ∀ j, j < a.size_ → a.live[j]? = b.live[j]?)) := by
  have ha' : a.size_ ≤ a.arr_.raw_ptr_.length := ha.1.trans ha.2
  have hb' : b.size_ ≤ b.arr_.raw_ptr_.length := hb.1.trans hb.2
  obtain ⟨r, hr, hiff⟩ := op_lt_val a b ha' hb'
  refine ⟨r, hr, ?_⟩
  have hL : LexBelow a.live b.live ↔
      ((∃ i, i < a.size_ ∧ i < b.size_ ∧ (∀ j, j < i → a.live[j]? = b.live[j]?) ∧
          ∃ x y, a.live[i]? = some x ∧ b.live[i]? = some y ∧ x < y) ∨
        (a.size_ < b.size_ ∧ ∀ j, j < a.size_ → a.live[j]? = b.live[j]?)) := by
    unfold LexBelow
    rw [live_length a ha', live_length b hb']
  rw [hiff, ← hL]
  exact ⟨lexBelow_of_lt, lt_of_lexBelow _ _⟩

/-- Witness for C12: `{1,2} < {1,2,3}` is `true`. -/
theorem op_lt_spec_witness : (lit [1, 2]).op_lt (lit [1, 2, 3]) = .ok true := by
  obtain ⟨r, h1, h2⟩ := op_lt_spec (lit [1, 2]) (lit [1, 2, 3]) (by decide) (by decide)
  have hr : r = true := h2.mpr (Or.inr ⟨by decide, fun j hj => by
    have : j = 0 ∨ j = 1 := by
      have : j < 2 := hj
      omega
    rcases this with h | h <;> subst h <;> rfl⟩)
  subst hr
  exact h1

/-- C13: on well-formed vectors over a linearly ordered element type all six
comparisons return, and with `e`, `l`, `g` the results of `a == b`, `a < b`,
`b < a`: `a <= b` is `l || e`, `a > b` is `g`, `a >= b` is `g || e`, `a != b`
is `!e`, and exactly one of `l`, `e`, `g` is `true`. -/
theorem comparisons_agree [LinearOrder α] (a b : SimpleVector α) (ha : a.WF) (hb : b.WF) :
    ∃ e l g : Bool, a.op_eq b = .ok e ∧ a.op_lt b = .ok l ∧ b.op_lt a = .ok g ∧
      a.op_le b = .ok (l || e) ∧ a.op_gt b = .ok g ∧ a.op_ge b = .ok (g || e) ∧
      a.op_ne b = .ok (!e) ∧
      ((l = true ∧ e = false ∧ g = false) ∨ (l = false ∧ e = true ∧ g = false) ∨
        (l = false ∧ e = false ∧ g = true)) := by
  have ha' : a.size_ ≤ a.arr_.raw_ptr_.length := ha.1.trans ha.2
  have hb' : b.size_ ≤ b.arr_.raw_ptr_.length := hb.1.trans hb.2
  obtain ⟨l, hl, hliff⟩ := op_lt_val a b ha' hb'
  obtain ⟨g, hg, hgiff⟩ := op_lt_val b a hb' ha'
  have he := op_eq_val a b ha' hb'
  have hex : (l = true ∧ decide (a.live = b.live) = false ∧ g = false) ∨
      (l = false ∧ decide (a.live = b.live) = true ∧ g = false) ∨
      (l = false ∧ decide (a.live = b.live) = false ∧ g = true) := by
    rcases list_lt_trichotomy a.live b.live with h | h | h
    · left
      refine ⟨hliff.mpr h, ?_, ?_⟩
      · rw [decide_eq_false_iff_not]
        intro heq
        rw [heq] at h
        exact list_lt_asymm h h
      · cases hgv : g with
        | false => rfl
        | true => exact absurd (hgiff.mp hgv) (list_lt_asymm h)
    · right; left
      refine ⟨?_, decide_eq_true h, ?_⟩
      · cases hlv : l with
        | false => rfl
        | true =>
          have h1 := hliff.mp hlv
          rw [h] at h1
          exact absurd h1 (list_lt_asymm h1)
      · cases hgv : g with
        | false => rfl
        | true =>
          have h1 := hgiff.mp hgv
          rw [h] at h1
          exact absurd h1 (list_lt_asymm h1)
    · right; right
      refine ⟨?_, ?_, hgiff.mpr h⟩
      · cases hlv : l with
        | false => rfl
        | true => exact absurd (hliff.mp hlv) (list_lt_asymm h)
      · rw [decide_eq_false_iff_not]
        intro heq
        rw [heq] at h
        exact list_lt_asymm h h
  refine ⟨decide (a.live = b.live), l, g, he, hl, hg, ?_, ?_, ?_, ?_, hex⟩
  · unfold SimpleVector.op_le
    rw [hg]
    rcases hex with ⟨h1, h2, h3⟩ | ⟨h1, h2, h3⟩ | ⟨h1, h2, h3⟩ <;> rw [h1, h2, h3] <;> rfl
  · unfold SimpleVector.op_gt
    exact hg
  · unfold SimpleVector.op_ge
    rw [hl]
    rcases hex with ⟨h1, h2, h3⟩ | ⟨h1, h2, h3⟩ | ⟨h1, h2, h3⟩ <;> rw [h1, h2, h3] <;> rfl
  · unfold SimpleVector.op_ne
    rw [he]
    rfl

/-- Witness for C13: the six comparisons of `{1,2}` with `{1,2,3}`. -/
theorem comparisons_agree_witness :
    ∃ e l g : Bool, (lit [1, 2]).op_eq (lit [1, 2, 3]) = .ok e ∧
      (lit [1, 2]).op_lt (lit [1, 2, 3]) = .ok l ∧ (lit [1, 2, 3]).op_lt (lit [1, 2]) = .ok g ∧
      (lit [1, 2]).op_le (lit [1, 2, 3]) = .ok (l || e) ∧
      (lit [1, 2]).op_gt (lit [1, 2, 3]) = .ok g ∧
      (lit [1, 2]).op_ge (lit [1, 2, 3]) = .ok (g || e) ∧
      (lit [1, 2]).op_ne (lit [1, 2, 3]) = .ok (!e) := by
  obtain ⟨e, l, g, h1, h2, h3, h4, h5, h6, h7, _⟩ :=
    comparisons_agree (lit [1, 2]) (lit [1, 2, 3]) (by decide) (by decide)
  exact ⟨e, l, g, h1, h2, h3, h4, h5, h6, h7⟩

/-- C15: move-construction from `s` yields a vector with the live sequence,
size and capacity of `s`, and leaves the source with size 0 and capacity 0. -/
theorem move_ctor_spec (s : SimpleVector α) :
    s.move_ctor.1.live = s.live ∧
      s.move_ctor.1.size_ = s.size_ ∧
      s.move_ctor.1.capacity_ = s.capacity_ ∧
      s.move_ctor.2.size_ = 0 ∧
      s.move_ctor.2.capacity_ = 0 :=
  ⟨rfl, rfl, rfl, rfl, rfl⟩

/-- C17 as stated fails: after `a = std::move(b)` with `a = {1,2}` and
`b = {3}`, `a` has the former live sequence, size and capacity of `b`, but `b`
does not have the former size and capacity of `a`: both are 0. -/
theorem move_assign_not_swap :
    ¬ ((((lit [1, 2]).move_assign (lit [3])).1.live = (lit [3]).live ∧
        ((lit [1, 2]).move_assign (lit [3])).1.size_ = (lit [3]).size_ ∧
        ((lit [1, 2]).move_assign (lit [3])).1.capacity_ = (lit [3]).capacity_) ∧
      (((lit [1, 2]).move_assign (lit [3])).2.size_ = (lit [1, 2]).size_ ∧
        ((lit [1, 2]).move_assign (lit [3])).2.capacity_ = (lit [1, 2]).capacity_ ∧
        ((lit [1, 2]).move_assign (lit [3])).2.arr_ = (lit [1, 2]).arr_)) := by
  decide

/-- C17, amended: for distinct `a` and `b`, after `a = std::move(b)` the vector
`a` has the former storage, live sequence, size and capacity of `b`, and `b`
holds the former storage of `a` with size 0 and capacity 0. -/
theorem move_assign_spec (a b : SimpleVector α) :
    (a.move_assign b).1.arr_ = b.arr_ ∧
      (a.move_assign b).1.live = b.live ∧
      (a.move_assign b).1.size_ = b.size_ ∧
      (a.move_assign b).1.capacity_ = b.capacity_ ∧
      (a.move_assign b).2.arr_ = a.arr_ ∧
      (a.move_assign b).2.size_ = 0 ∧
      (a.move_assign b).2.capacity_ = 0 :=
  ⟨rfl, rfl, rfl, rfl, rfl, rfl, rfl⟩

/-- C18, evaluated where it fails: `{1,2,3}` is full with capacity 3, and
`Insert(end(), 4)` leaves `{1,2,3,4}` with capacity 8, which is `2 * (3 + 1)`,
where the claim (and the comment above `Insert`) has `2 * 3 = 6`.  An empty
vector of capacity 0 does get capacity 1. -/
theorem Insert_full_capacity :
    ((lit [1, 2, 3]).Insert .unbounded (intEnv 0) 3 4).map
        (fun r => (r.2.live, r.2.capacity_)) = .ok ([1, 2, 3, 4], 8) ∧
    ((SimpleVector.default : SimpleVector Nat).Insert .unbounded (intEnv 0) 0 4).map
        (fun r => (r.2.live, r.2.capacity_)) = .ok ([4], 1) :=
  ⟨rfl, rfl⟩

/-- C19, evaluated where it fails: the in-place branch of `Resize` stores
`new_size` values from slot `size` on, that is slots `[size, size + new_size)`.
On the full `{1,2,3}`, `Resize(3)` stores to slots 3, 4 and 5 of a 3-slot
block; on a vector of size 1 over the block `1,2,3,4,5`, `Resize(2)` also
overwrites slot 2, which is not below `new_size`. -/
theorem Resize_in_place_overrun :
    ((lit [1, 2, 3]).Resize .unbounded (intEnv 0) 3).map
        (fun w => (w.size_, w.capacity_, w.arr_.stray)) = .ok (3, 3, [3, 4, 5]) ∧
    ((SimpleVector.mk ⟨[1, 2, 3, 4, 5], []⟩ 1 5).Resize .unbounded (intEnv 0) 2).map
        (fun w => (w.size_, w.arr_.raw_ptr_)) = .ok (2, [1, 0, 0, 4, 5]) :=
  ⟨rfl, rfl⟩

/-- C20: with 64-bit `size_t`, on a well-formed vector and for a `new_size`
`m > capacity` (itself a `size_t`, so below `2^64`), `Resize(m)` returns with
size `m` and capacity `2 * m mod 2^64`; the result has `size ≤ capacity`
exactly when `m < 2^63`, and for `m ≥ 2^63` it has `capacity < size`. -/
theorem Resize_wrap (E : Env α) (v : SimpleVector α) (m : Nat)
    (hwf : v.WF) (hm : v.capacity_ < m) (hm64 : m < 2 ^ 64) :
    ∃ w, v.Resize (.bits 64) E m = .ok w ∧
      w.size_ = m ∧
      w.capacity_ = (2 * m) % 2 ^ 64 ∧
      (w.size_ ≤ w.capacity_ ↔ m < 2 ^ 63) ∧
      (2 ^ 63 ≤ m → w.capacity_ < w.size_) := by
  obtain ⟨hsc, hcl⟩ := hwf
  obtain ⟨tmp, hr, _⟩ := Resize_grow (.bits 64) E v m (by omega) (by omega) (by omega)
  refine ⟨_, hr, rfl, rfl, ?_, ?_⟩
  · show m ≤ (2 * m) % 2 ^ 64 ↔ m < 2 ^ 63
    omega
  · intro h
    show (2 * m) % 2 ^ 64 < m
    omega

/-- Witness for C20: `Resize(2^63)` on a default-constructed vector gives size
`2^63` and capacity 0. -/
theorem Resize_wrap_witness :
    ∃ w, (SimpleVector.default : SimpleVector Nat).Resize (.bits 64) (intEnv 0) (2 ^ 63)
        = .ok w ∧ w.size_ = 2 ^ 63 ∧ w.capacity_ = 0 ∧ w.capacity_ < w.size_ := by
  obtain ⟨w, h1, h2, h3, _, h5⟩ :=
    Resize_wrap (intEnv 0) (SimpleVector.default : SimpleVector Nat) (2 ^ 63)
      (by decide) (by decide) (by decide)
  exact ⟨w, h1, h2, by rw [h3]; decide, h5 (Nat.le_refl _)⟩

end SimpleVec
